import Mathlib

/-!
Verification of the analyst-question attribution and consolidation pipeline
of `src/server/earnings-tracker.ts`.

The TypeScript code is shallowly embedded in Lean:

* a JS string is modeled as a `List Char` (`Str`); the JS string methods
  used by the code (`toLowerCase`, `trim`, `split`, `includes`,
  `startsWith`, `charAt(0).toUpperCase() + slice(1)`) are modeled by
  executable Lean functions over `List Char`, with ASCII case conversion
  (the transcripts and all lookup tables are ASCII);
* a parsed JSON value is modeled by `JsValue`; a transcript `content`
  string is modeled by `ContentStr`, the pair of the raw string and the
  (oracle) outcome of `JSON.parse` on it;
* JS exceptions (`TypeError` on property access on `null`, on calling a
  string method of a non-string, on `for … of` over a non-iterable) are
  modeled with `Except Unit`; code wrapped in `try { … } catch` becomes a
  total function;
* the JS regular expressions used by the extraction code are embedded as
  data (`Rx`) and executed by a fuel-bounded backtracking matcher with
  JavaScript semantics (leftmost match, ordered alternation, greedy and
  lazy quantifiers, `lastIndex`-based global `exec` loops);
* `Map` objects are association lists with insert-or-overwrite update and
  insertion iteration order.
-/

/-- A JS string, modeled as its list of characters. -/
abbrev Str := List Char

/-- Shorthand turning a Lean string literal into the `Str` model. -/
def str (s : String) : Str := s.data

/-- ASCII model of `String.prototype.toLowerCase` on one character. -/
def lowerChar (c : Char) : Char :=
  if 65 ≤ c.toNat ∧ c.toNat ≤ 90 then Char.ofNat (c.toNat + 32) else c

/-- ASCII model of `String.prototype.toUpperCase` on one character. -/
def upperChar (c : Char) : Char :=
  if 97 ≤ c.toNat ∧ c.toNat ≤ 122 then Char.ofNat (c.toNat - 32) else c

/-- Model of `String.prototype.toLowerCase`. -/
def jsToLower (s : Str) : Str := s.map lowerChar

/-- Model of `String.prototype.toUpperCase`. -/
def jsToUpper (s : Str) : Str := s.map upperChar

/-- The whitespace characters recognized by the model (`\s` of the
regexes, `trim`, `split(/\s+/)`); ASCII approximation. -/
def isWs (c : Char) : Bool := c.toNat = 32 || c.toNat = 9 || c.toNat = 13 || c.toNat = 10

/-- Model of `String.prototype.trim`. -/
def jsTrim (s : Str) : Str := ((s.dropWhile isWs).reverse.dropWhile isWs).reverse

/-- Whether `p` is a prefix of `s` (boolean, by char equality). -/
def isPrefOf : Str → Str → Bool
  | [], _ => true
  | _ :: _, [] => false
  | c :: p, d :: s => c = d && isPrefOf p s

/-- Model of `String.prototype.includes` (substring containment). -/
def containsSub (s pat : Str) : Bool := s.tails.any (fun t => isPrefOf pat t)

/-- Model of `String.prototype.startsWith`. -/
def startsWithStr (s pat : Str) : Bool := isPrefOf pat s

/-- Accumulator-based splitter on whitespace runs: produces the nonempty
maximal whitespace-free chunks of `s` (`cur` is the current chunk,
reversed). -/
def wsTokensAux : Str → Str → List Str
  | cur, [] => if cur = [] then [] else [cur.reverse]
  | cur, c :: s =>
    if isWs c then
      if cur = [] then wsTokensAux [] s else cur.reverse :: wsTokensAux [] s
    else wsTokensAux (c :: cur) s

/-- The whitespace-separated tokens of a string.  For a trimmed string
this agrees with JS `split(/\s+/)`, except that JS returns `[""]` on the
empty string where this returns `[]`; the two uses below read tokens with
optional-chaining defaults, which coincide on that case. -/
def wsTokens (s : Str) : List Str := wsTokensAux [] s

/-- Splits `s` at every non-overlapping occurrence of the separator
`sep` (leftmost first), the model of JS `String.prototype.split` with a
nonempty string separator. `n` is fuel (the length of `s` suffices). -/
def splitOnSubAux (sep : Str) : Nat → Str → Str → List Str
  | 0, cur, rest => [cur.reverse ++ rest]
  | _ + 1, cur, [] => [cur.reverse]
  | n + 1, cur, c :: s =>
    if isPrefOf sep (c :: s) then
      cur.reverse :: splitOnSubAux sep n [] (List.drop (sep.length - 1) s)
    else
      splitOnSubAux sep n (c :: cur) s

/-- Model of JS `String.prototype.split` with a nonempty literal
separator. -/
def splitOnSub (s sep : Str) : List Str := splitOnSubAux sep (s.length + 1) [] s

/- Character-level facts used by the normalization proofs. -/

theorem Char.toNat_inj {c d : Char} (h : c.toNat = d.toNat) : c = d := by
  apply Char.eq_of_val_eq
  exact UInt32.toNat.inj h

theorem toNat_ofNat_of_lt {n : Nat} (h : n < 55296) : (Char.ofNat n).toNat = n := by
  simp [Char.ofNat, Nat.isValidChar, Char.toNat, h, Char.ofNatAux, UInt32.ofNatCore,
    UInt32.toNat]

theorem toNat_lowerChar_of_upper {c : Char} (h : 65 ≤ c.toNat ∧ c.toNat ≤ 90) :
    (lowerChar c).toNat = c.toNat + 32 := by
  unfold lowerChar
  rw [if_pos h]
  exact toNat_ofNat_of_lt (by omega)

theorem lowerChar_of_not_upper {c : Char} (h : ¬(65 ≤ c.toNat ∧ c.toNat ≤ 90)) :
    lowerChar c = c := by
  unfold lowerChar
  rw [if_neg h]

theorem toNat_upperChar_of_lower {c : Char} (h : 97 ≤ c.toNat ∧ c.toNat ≤ 122) :
    (upperChar c).toNat = c.toNat - 32 := by
  unfold upperChar
  rw [if_pos h]
  exact toNat_ofNat_of_lt (by omega)

theorem upperChar_of_not_lower {c : Char} (h : ¬(97 ≤ c.toNat ∧ c.toNat ≤ 122)) :
    upperChar c = c := by
  unfold upperChar
  rw [if_neg h]

/-- Lowercasing is idempotent on characters. -/
theorem lowerChar_lowerChar (c : Char) : lowerChar (lowerChar c) = lowerChar c := by
  by_cases h : 65 ≤ c.toNat ∧ c.toNat ≤ 90
  · have h1 := toNat_lowerChar_of_upper h
    exact lowerChar_of_not_upper (by omega)
  · rw [lowerChar_of_not_upper h]
    exact lowerChar_of_not_upper h

/-- A character fixed by lowercasing is recovered by lowercasing its
uppercased form. -/
theorem lowerChar_upperChar {c : Char} (h : lowerChar c = c) :
    lowerChar (upperChar c) = c := by
  by_cases hl : 97 ≤ c.toNat ∧ c.toNat ≤ 122
  · have h1 := toNat_upperChar_of_lower hl
    have h2 : 65 ≤ (upperChar c).toNat ∧ (upperChar c).toNat ≤ 90 := by omega
    have h3 := toNat_lowerChar_of_upper h2
    apply Char.toNat_inj
    omega
  · rw [upperChar_of_not_lower hl]
    exact h

/-- Lowercasing never produces a whitespace character from a
non-whitespace character. -/
theorem isWs_lowerChar (c : Char) : isWs (lowerChar c) = isWs c := by
  by_cases h : 65 ≤ c.toNat ∧ c.toNat ≤ 90
  · have h1 := toNat_lowerChar_of_upper h
    have hA : isWs (lowerChar c) = false := by
      simp only [isWs, Bool.or_eq_false_iff, decide_eq_false_iff_not]
      omega
    have hB : isWs c = false := by
      simp only [isWs, Bool.or_eq_false_iff, decide_eq_false_iff_not]
      omega
    rw [hA, hB]
  · rw [lowerChar_of_not_upper h]

/-- Uppercasing never produces a whitespace character from a
non-whitespace character. -/
theorem isWs_upperChar (c : Char) : isWs (upperChar c) = isWs c := by
  by_cases h : 97 ≤ c.toNat ∧ c.toNat ≤ 122
  · have h1 := toNat_upperChar_of_lower h
    have hA : isWs (upperChar c) = false := by
      simp only [isWs, Bool.or_eq_false_iff, decide_eq_false_iff_not]
      omega
    have hB : isWs c = false := by
      simp only [isWs, Bool.or_eq_false_iff, decide_eq_false_iff_not]
      omega
    rw [hA, hB]
  · rw [upperChar_of_not_lower h]

/- The JSON / JS value model. -/

/-- A parsed JSON value (the possible results of `JSON.parse`). -/
inductive JsValue where
  | jsNull : JsValue
  | jsBool : Bool → JsValue
  | jsNum : Int → JsValue
  | jsStr : Str → JsValue
  | jsArr : List JsValue → JsValue
  | jsObj : List (Str × JsValue) → JsValue

/-- JS truthiness of a value (`NaN` is not representable here). -/
def truthy : JsValue → Bool
  | .jsNull => false
  | .jsBool b => b
  | .jsNum n => n ≠ 0
  | .jsStr s => s ≠ []
  | .jsArr _ => true
  | .jsObj _ => true

mutual

/-- Model of JS string coercion `String(v)` as performed by
`RegExp.prototype.exec` on a non-string argument (array stringification
joins element strings with commas, rendering `null` elements empty). -/
def jsToString : JsValue → Str
  | .jsNull => str "null"
  | .jsBool b => if b then str "true" else str "false"
  | .jsNum n => (Int.repr n).data
  | .jsStr s => s
  | .jsArr xs => jsArrToString xs
  | .jsObj _ => str "[object Object]"

/-- Stringification of a JS array body (helper of `jsToString`). -/
def jsArrToString : List JsValue → Str
  | [] => []
  | [.jsNull] => []
  | [v] => jsToString v
  | .jsNull :: v :: rest => ',' :: jsArrToString (v :: rest)
  | u :: v :: rest => jsToString u ++ ',' :: jsArrToString (v :: rest)

end

/-- Property read `v[k]`: `undefined` is `none`; reading a property of
`null` throws a `TypeError` (`.error ()`).  For a JSON object the last
binding of a key wins, as in `JSON.parse`. -/
def getField : JsValue → Str → Except Unit (Option JsValue)
  | .jsNull, _ => .error ()
  | .jsObj fs, k => .ok ((fs.reverse.find? (fun p => p.1 = k)).map Prod.snd)
  | _, _ => .ok none

/-- The string content of `v` if `v` is a string; calling a string method
on any other value throws. -/
def asStr : JsValue → Except Unit Str
  | .jsStr s => .ok s
  | _ => .error ()

/-- Model of `(v || '')`: JS `||` returns its left operand when truthy,
otherwise its right operand; `none` models `undefined`. -/
def jsOrEmptyStr : Option JsValue → JsValue
  | some v => if truthy v then v else .jsStr []
  | none => .jsStr []

/-- Model of `for (const x of v)`: arrays iterate their elements, strings
iterate their characters (as one-character strings), everything else
throws a `TypeError`. -/
def forOfSegs : JsValue → Except Unit (List JsValue)
  | .jsArr xs => .ok xs
  | .jsStr s => .ok (s.map fun c => .jsStr [c])
  | _ => .error ()

/- The data model of the pipeline (src/server/earnings-tracker.ts and the
shared schema). -/

/-- A transcript `content` column value: the raw string together with the
modeled outcome of `JSON.parse` on it (`.error` for text that is not
JSON). -/
structure ContentStr where
  raw : Str
  parsed : Except Unit JsValue

/-- A stored transcript (the fields the extraction code reads). -/
structure Transcript where
  id : Nat
  symbol : Str
  quarter : Str
  year : Int
  title : Str
  content : ContentStr

/-- The `AnalystQuestion` record interface. -/
structure AnalystQuestion where
  analystName : Str
  analystTitle : Str
  analystCompany : Str
  question : Str
  transcriptId : Nat
  symbol : Str
  quarter : Str
  year : Int
  transcriptTitle : Str
deriving DecidableEq, Repr

/-- The `PreparedStatement` record interface.  `speakerName` keeps the JS
value `speaker.speaker || 'Unknown'`, which the code stores without
further checks. -/
structure PreparedStatement where
  speakerName : JsValue
  speakerTitle : Str
  statement : Str
  transcriptId : Nat
  symbol : Str
  quarter : Str
  year : Int
  transcriptTitle : Str

/-- A JS `Map<string, { company: string }>`, as an association list in
insertion order with insert-or-overwrite update. -/
abbrev OpMap := List (Str × Str)

/-- `map.get(k)` (keys are unique by construction, the first binding is
the binding). -/
def mapGet (m : OpMap) (k : Str) : Option Str :=
  (m.find? (fun p => p.1 = k)).map Prod.snd

/-- `map.set(k, v)`: overwrite in place if present, else append. -/
def mapSet (m : OpMap) (k v : Str) : OpMap :=
  match m with
  | [] => [(k, v)]
  | (k0, v0) :: rest => if k0 = k then (k0, v) :: rest else (k0, v0) :: mapSet rest k v

/-- `map.has(k)`. -/
def mapHas (m : OpMap) (k : Str) : Bool := (mapGet m k).isSome

/- A data-level embedding of the JavaScript regular expressions used by
the extraction code, with a fuel-bounded backtracking matcher following
JavaScript semantics: leftmost match, ordered alternation, greedy and
lazy quantifiers, word boundaries, `^`/`$` anchors (no `m` flag). -/

/-- Whether `c` is a `\w` word character. -/
def isWordChar (c : Char) : Bool :=
  (65 ≤ c.toNat && c.toNat ≤ 90) || (97 ≤ c.toNat && c.toNat ≤ 122) ||
  (48 ≤ c.toNat && c.toNat ≤ 57) || c.toNat = 95

/-- One item of a character class. -/
inductive CItem where
  | single : Char → CItem
  | range : Char → Char → CItem
  | wordC : CItem
  | spaceC : CItem
  | dotC : CItem
  | anyC : CItem

/-- Whether class item `it` matches character `c` (`ci` = the `i` flag). -/
def citemMatch (ci : Bool) (it : CItem) (c : Char) : Bool :=
  match it with
  | .single d => if ci then lowerChar c = lowerChar d else c = d
  | .range lo hi =>
    (lo.toNat ≤ c.toNat && c.toNat ≤ hi.toNat) ||
    (ci && ((lo.toNat ≤ (lowerChar c).toNat && (lowerChar c).toNat ≤ hi.toNat) ||
            (lo.toNat ≤ (upperChar c).toNat && (upperChar c).toNat ≤ hi.toNat)))
  | .wordC => isWordChar c
  | .spaceC => isWs c
  | .dotC => !(c.toNat = 10 || c.toNat = 13)
  | .anyC => true

/-- The regular-expression abstract syntax. -/
inductive Rx where
  | eps : Rx
  | cls : List CItem → Rx
  | lit : Str → Rx
  | seq : Rx → Rx → Rx
  | alt : Rx → Rx → Rx
  | star : Bool → Rx → Rx
  | opt : Bool → Rx → Rx
  | grp : Nat → Rx → Rx
  | bos : Rx
  | eos : Rx
  | wordB : Rx

/-- Captured group spans: group index to (start, stop) subject offsets. -/
abbrev Caps := List (Nat × Nat × Nat)

/-- Record the span of group `i` (overwriting an earlier span). -/
def setCap (caps : Caps) (i a b : Nat) : Caps :=
  (i, a, b) :: caps.filter (fun p => p.1 ≠ i)

/-- Look up the span of group `i`. -/
def getCap (caps : Caps) (i : Nat) : Option (Nat × Nat) :=
  (caps.find? (fun p => p.1 = i)).map Prod.snd

/-- Whether the literal `l` occurs at `pos` in `s` (honoring the `i`
flag), in which case the new position is returned. -/
def litAt (ci : Bool) (l : Str) (s : Str) (pos : Nat) : Option Nat :=
  let seg := (s.drop pos).take l.length
  let ok := if ci then jsToLower seg = jsToLower l else seg = l
  if ok && seg.length = l.length then some (pos + l.length) else none

/-- The backtracking matcher, in continuation-passing style.  `rxm fuel
re s ci pos caps k` matches `re` at offset `pos` of `s` and calls `k`
with the new offset and captures for the continuation of the pattern;
the first success in JavaScript preference order is returned.  `fuel`
bounds the recursion depth (every recursive call consumes one unit;
matched repetitions always advance, so depth is at most about the
pattern size times the subject length, and the generous bound used by
`tryAt` below suffices). -/
def rxm : Nat → Rx → Str → Bool → Nat → Caps →
    (Nat → Caps → Option (Nat × Caps)) → Option (Nat × Caps)
  | 0, _, _, _, _, _, _ => none
  | fuel + 1, re, s, ci, pos, caps, k =>
    match re with
    | .eps => k pos caps
    | .lit l =>
      match litAt ci l s pos with
      | some p => k p caps
      | none => none
    | .cls items =>
      match s.drop pos with
      | [] => none
      | c :: _ => if items.any (fun it => citemMatch ci it c) then k (pos + 1) caps else none
    | .bos => if pos = 0 then k pos caps else none
    | .eos => if pos = s.length then k pos caps else none
    | .wordB =>
      let w1 : Bool := match s.drop pos with
        | c :: _ => isWordChar c
        | [] => false
      let w0 : Bool := if pos = 0 then false else
        match s.drop (pos - 1) with
        | c :: _ => isWordChar c
        | [] => false
      if w0 ≠ w1 then k pos caps else none
    | .seq a b => rxm fuel a s ci pos caps (fun p c => rxm fuel b s ci p c k)
    | .alt a b =>
      match rxm fuel a s ci pos caps k with
      | some r => some r
      | none => rxm fuel b s ci pos caps k
    | .grp i a => rxm fuel a s ci pos caps (fun p c => k p (setCap c i pos p))
    | .opt lzy a =>
      if lzy then
        match k pos caps with
        | some r => some r
        | none => rxm fuel a s ci pos caps k
      else
        match rxm fuel a s ci pos caps k with
        | some r => some r
        | none => k pos caps
    | .star lzy a =>
      if lzy then
        match k pos caps with
        | some r => some r
        | none =>
          rxm fuel a s ci pos caps (fun p c =>
            if p = pos then none else rxm fuel (.star lzy a) s ci p c k)
      else
        match rxm fuel a s ci pos caps (fun p c =>
            if p = pos then k p c else rxm fuel (.star lzy a) s ci p c k) with
        | some r => some r
        | none => k pos caps

/-- A crude size of a pattern, used for the matcher fuel. -/
def rxSize : Rx → Nat
  | .eps | .bos | .eos | .wordB => 1
  | .cls _ => 1
  | .lit l => l.length + 1
  | .seq a b => rxSize a + rxSize b + 1
  | .alt a b => rxSize a + rxSize b + 1
  | .star _ a => rxSize a + 1
  | .opt _ a => rxSize a + 1
  | .grp _ a => rxSize a + 1

/-- One regex match: its span and its captured group spans. -/
structure MatchRes where
  start : Nat
  stop : Nat
  caps : Caps

/-- Try to match `re` exactly at offset `pos`. -/
def tryAt (re : Rx) (s : Str) (ci : Bool) (pos : Nat) : Option MatchRes :=
  match rxm ((rxSize re + 2) * (s.length + 2)) re s ci pos [] (fun p c => some (p, c)) with
  | some (p, c) => some ⟨pos, p, c⟩
  | none => none

/-- Find the leftmost match of `re` at offset `from0` or later. -/
def searchFrom (re : Rx) (s : Str) (ci : Bool) (from0 : Nat) : Option MatchRes :=
  go (s.length + 1 - from0) from0
where
  go : Nat → Nat → Option MatchRes
    | 0, _ => none
    | n + 1, pos =>
      match tryAt re s ci pos with
      | some m => some m
      | none => go n (pos + 1)

/-- All matches of a `g`-flagged regex in `exec`-loop order (the JS
`lastIndex` protocol; an empty match advances by one, which our patterns
never produce). -/
def execAll (re : Rx) (s : Str) (ci : Bool) : List MatchRes :=
  go (s.length + 2) 0
where
  go : Nat → Nat → List MatchRes
    | 0, _ => []
    | n + 1, li =>
      match searchFrom re s ci li with
      | none => []
      | some m => m :: go n (max m.stop (m.start + 1))

/-- The substring of `s` from offset `a` to offset `b`. -/
def sliceStr (s : Str) (a b : Nat) : Str := (s.drop a).take (b - a)

/-- The text captured by group `i` of match `m` (JS `match[i]`),
`none` when the group did not participate. -/
def capStr (s : Str) (m : MatchRes) (i : Nat) : Option Str :=
  (getCap m.caps i).map (fun p => sliceStr s p.1 p.2)

/-- Model of `s.replace(re, '')` for a `g`-flagged regex. -/
def replaceAllRx (re : Rx) (ci : Bool) (s : Str) : Str :=
  let ms := execAll re s ci
  (List.range s.length).filterMap fun i =>
    if ms.any (fun m => m.start ≤ i && i < m.stop) then none else (s.drop i).take 1 |>.head?

/-- Model of `s.replace(re, '')` for a regex without the `g` flag (first
match only). -/
def replaceFirstRx (re : Rx) (ci : Bool) (s : Str) : Str :=
  match searchFrom re s ci 0 with
  | none => s
  | some m =>
    (List.range s.length).filterMap fun i =>
      if m.start ≤ i && i < m.stop then none else (s.drop i).take 1 |>.head?

/-- Model of `re.test(s)`. -/
def testRx (re : Rx) (s : Str) (ci : Bool) : Bool := (searchFrom re s ci 0).isSome

/- The concrete patterns of src/server/earnings-tracker.ts, as data. -/

/-- Sequence a list of pattern pieces. -/
def rxseq (l : List Rx) : Rx := l.foldr Rx.seq .eps

/-- Ordered alternation of a list of pattern pieces. -/
def ralts (l : List Rx) : Rx :=
  match l with
  | [] => .eps
  | [r] => r
  | r :: rest => .alt r (ralts rest)

/-- Literal piece from a Lean string. -/
def rlit (s : String) : Rx := .lit (str s)

/-- Greedy `+` (one or more). -/
def rplus (r : Rx) : Rx := .seq r (.star false r)

/-- Lazy `+?`. -/
def rplusLazy (r : Rx) : Rx := .seq r (.star true r)

/-- The class `[A-Za-z\s\.'-]` (analyst-name class). -/
def nameCls : Rx :=
  .cls [.range 'A' 'Z', .range 'a' 'z', .spaceC, .single '.', .single '\'', .single '-']

/-- The class `[A-Za-z\s&\.\-]` (institution class). -/
def compCls : Rx :=
  .cls [.range 'A' 'Z', .range 'a' 'z', .spaceC, .single '&', .single '.', .single '-']

/-- The terminator `(?:\.|,|please|go ahead|\s*$)` of the operator
patterns. -/
def opTerm : Rx :=
  ralts [rlit ".", rlit ",", rlit "please", rlit "go ahead",
    .seq (.star false (.cls [.spaceC])) .eos]

/-- The terminator `(?:\.|please|go ahead|\s*$)` of the comma operator
pattern. -/
def opTermNoComma : Rx :=
  ralts [rlit ".", rlit "please", rlit "go ahead",
    .seq (.star false (.cls [.spaceC])) .eos]

/-- `\s+`. -/
def wsPlus : Rx := rplus (.cls [.spaceC])

/-- `\s*`. -/
def wsStar : Rx := .star false (.cls [.spaceC])

/-- Pattern 1 of `extractOperatorAnalystInfo`:
`/(?:first|next|following)\s+question\s+(?:is\s+from|comes\s+from)\s+([A-Za-z\s\.'-]+?)\s+(?:with|from|at)\s+([A-Za-z\s&\.\-]+?)(?:\.|,|please|go ahead|\s*$)/gi`. -/
def opPat1 : Rx :=
  rxseq [ralts [rlit "first", rlit "next", rlit "following"], wsPlus,
    rlit "question", wsPlus,
    ralts [rxseq [rlit "is", wsPlus, rlit "from"], rxseq [rlit "comes", wsPlus, rlit "from"]],
    wsPlus, .grp 1 (rplusLazy nameCls), wsPlus,
    ralts [rlit "with", rlit "from", rlit "at"], wsPlus,
    .grp 2 (rplusLazy compCls), opTerm]

/-- Pattern 2 of `extractOperatorAnalystInfo`:
`/(\w+\s+\w+(?:\s+\w+)?)\s+(?:with|from|at)\s+([A-Za-z\s&\.\-]+?)(?:\.|,|please|go ahead|\s*$)/gi`. -/
def opPat2 : Rx :=
  rxseq [.grp 1 (rxseq [rplus (.cls [.wordC]), wsPlus, rplus (.cls [.wordC]),
      .opt false (.seq wsPlus (rplus (.cls [.wordC])))]),
    wsPlus, ralts [rlit "with", rlit "from", rlit "at"], wsPlus,
    .grp 2 (rplusLazy compCls), opTerm]

/-- Pattern 3 of `extractOperatorAnalystInfo`:
`/([A-Za-z\s\.'-]+?),\s*([A-Za-z\s&\.\-]+?)(?:\.|please|go ahead|\s*$)/gi`. -/
def opPat3 : Rx :=
  rxseq [.grp 1 (rplusLazy nameCls), rlit ",", wsStar,
    .grp 2 (rplusLazy compCls), opTermNoComma]

/-- Pattern 4 of `extractOperatorAnalystInfo`:
`/([A-Za-z\s\.'-]+?)\s+from\s+([A-Za-z\s&\.\-]+?)(?:\.|,|please|go ahead|\s*$)/gi`. -/
def opPat4 : Rx :=
  rxseq [.grp 1 (rplusLazy nameCls), wsPlus, rlit "from", wsPlus,
    .grp 2 (rplusLazy compCls), opTerm]

/-- The four operator-introduction patterns, in source order. -/
def opPatterns : List Rx := [opPat1, opPat2, opPat3, opPat4]

/-- Name cleanup `/^(the line of|line of)\s+/gi`. -/
def lineOfPat : Rx :=
  rxseq [.bos, .grp 1 (ralts [rlit "the line of", rlit "line of"]), wsPlus]

/-- Company cleanup `/\b(please go ahead|go ahead|your question)\b/gi`. -/
def fillerPat : Rx :=
  rxseq [.wordB, .grp 1 (ralts [rlit "please go ahead", rlit "go ahead", rlit "your question"]),
    .wordB]

/-- Trailing punctuation cleanup `/[.,;]$/` (no flags). -/
def trailPunctPat : Rx :=
  .seq (.cls [.single '.', .single ',', .single ';']) .eos

/-- The question-word test
`/\b(what|how|when|where|why|can you|could you|would you|do you|are you|will you|is there)\b/i`. -/
def questionWordsPat : Rx :=
  rxseq [.wordB, .grp 1 (ralts [rlit "what", rlit "how", rlit "when", rlit "where",
    rlit "why", rlit "can you", rlit "could you", rlit "would you", rlit "do you",
    rlit "are you", rlit "will you", rlit "is there"]), .wordB]

/-- The text-format turn pattern `/^(.+?)\s*\((.+?)\):\s*([\s\S]+)$/`. -/
def speakerLinePat : Rx :=
  rxseq [.bos, .grp 1 (rplusLazy (.cls [.dotC])), wsStar, rlit "(",
    .grp 2 (rplusLazy (.cls [.dotC])), rlit ")", rlit ":", wsStar,
    .grp 3 (rplus (.cls [.anyC])), .eos]

/-- The terminator `(?:\s|$|,|\.|;)` of the title company patterns. -/
def titleTerm : Rx := ralts [.cls [.spaceC], .eos, rlit ",", rlit ".", rlit ";"]

/-- The seven title company-extraction patterns of
`extractAnalystQuestionsFromSingleTranscript`, in source order. -/
def titlePatterns : List Rx :=
  [ rxseq [ralts [rlit "with", rlit "from", rlit "at"], wsPlus,
      .grp 1 (rplusLazy compCls), titleTerm],
    rxseq [.grp 1 (rplusLazy compCls), wsStar,
      ralts [rlit "analyst", rlit "research", rlit "equity"]],
    rxseq [rlit "analyst", .star true (.cls [.dotC]),
      ralts [rlit "with", rlit "at", rlit "from"], wsPlus,
      .grp 1 (rplusLazy compCls), titleTerm],
    rxseq [.grp 1 (rplusLazy compCls),
      ralts [rxseq [wsStar, rlit "-", wsStar, rlit "analyst"], .seq wsStar (rlit "analyst")]],
    rxseq [.grp 1 (rplusLazy compCls),
      ralts [rxseq [wsStar, rlit ",", wsStar, rlit "analyst"], .seq wsStar (rlit "analyst")]],
    rxseq [.grp 1 (rplusLazy compCls),
      ralts [rxseq [wsStar, rlit "|", wsStar, rlit "analyst"], .seq wsStar (rlit "analyst")]],
    rxseq [.bos, .grp 1 (rplusLazy compCls), .seq wsStar (rlit "analyst")] ]

/-- The title cleanup `/\b(analyst|research|equity)\b/gi`. -/
def titleCleanupPat : Rx :=
  rxseq [.wordB, .grp 1 (ralts [rlit "analyst", rlit "research", rlit "equity"]), .wordB]

/- Lookup tables (module-level constants of the source). -/

/-- The literal `'Unknown'`. -/
def strUnknown : Str := str "Unknown"

/-- The `institutions` table of `normalizeCompanyName`, in source
order. -/
def institutionsTable : List (Str × Str) :=
  [ (str "jpmorgan", str "JPMorgan Chase"), (str "jp morgan", str "JPMorgan Chase"),
    (str "goldman", str "Goldman Sachs"), (str "goldman sachs", str "Goldman Sachs"),
    (str "morgan stanley", str "Morgan Stanley"), (str "barclays", str "Barclays"),
    (str "citigroup", str "Citigroup"), (str "citi", str "Citigroup"),
    (str "bank of america", str "Bank of America"), (str "bofa", str "Bank of America"),
    (str "wells fargo", str "Wells Fargo"), (str "deutsche bank", str "Deutsche Bank"),
    (str "credit suisse", str "Credit Suisse"), (str "ubs", str "UBS"),
    (str "hsbc", str "HSBC"), (str "rbc", str "Royal Bank of Canada"),
    (str "royal bank", str "Royal Bank of Canada"), (str "scotia", str "Scotiabank"),
    (str "scotiabank", str "Scotiabank"), (str "td bank", str "TD Bank"),
    (str "bmo", str "Bank of Montreal"), (str "jefferies", str "Jefferies"),
    (str "cowen", str "Cowen"), (str "piper sandler", str "Piper Sandler"),
    (str "wedbush", str "Wedbush"), (str "oppenheimer", str "Oppenheimer"),
    (str "stifel", str "Stifel"), (str "raymond james", str "Raymond James"),
    (str "baird", str "Baird"), (str "mizuho", str "Mizuho"),
    (str "evercore", str "Evercore"), (str "canaccord", str "Canaccord Genuity") ]

/-- `normalizeCompanyName` of the source: first table entry contained in
the lowercased input wins; otherwise the input is returned unchanged. -/
def normalizeCompanyName (company : Str) : Str :=
  let companyLower := jsToLower company
  match institutionsTable.find? (fun p => containsSub companyLower p.1) with
  | some p => p.2
  | none => company

/-- The `nameVariations` nickname table of `normalizeAnalystName`. -/
def nameVariations : List (Str × Str) :=
  [ (str "mike", str "michael"), (str "mike.", str "michael"), (str "mich", str "michael"),
    (str "jim", str "james"), (str "jimmy", str "james"), (str "jim.", str "james"),
    (str "bob", str "robert"), (str "bobby", str "robert"), (str "rob", str "robert"),
    (str "dick", str "richard"), (str "rick", str "richard"), (str "rich", str "richard"),
    (str "bill", str "william"), (str "billy", str "william"), (str "will", str "william"),
    (str "tom", str "thomas"), (str "tommy", str "thomas"),
    (str "dan", str "daniel"), (str "danny", str "daniel"),
    (str "dave", str "david"), (str "davey", str "david"),
    (str "chris", str "christopher"), (str "nick", str "nicholas"),
    (str "alex", str "alexander"), (str "steve", str "steven"),
    (str "ben", str "benjamin"), (str "matt", str "matthew"),
    (str "tony", str "anthony"), (str "joe", str "joseph"), (str "joey", str "joseph"),
    (str "sam", str "samuel"), (str "sammy", str "samuel"),
    (str "andy", str "andrew"), (str "pat", str "patrick"), (str "pete", str "peter"),
    (str "ed", str "edward"), (str "eddie", str "edward"), (str "ted", str "theodore"),
    (str "frank", str "francis"), (str "greg", str "gregory"), (str "jeff", str "jeffrey"),
    (str "ken", str "kenneth"), (str "kenny", str "kenneth"), (str "brad", str "bradley"),
    (str "marc", str "mark"), (str "jon", str "jonathan"), (str "johnny", str "jonathan"),
    (str "tim", str "timothy"), (str "timmy", str "timothy") ]

/-- JS `s.charAt(0).toUpperCase() + s.slice(1)`. -/
def capitalizeStr : Str → Str
  | [] => []
  | c :: cs => upperChar c :: cs

/-- The result record of `normalizeAnalystName`. -/
structure NormName where
  normalizedName : Str
  firstName : Str
  lastName : Str
deriving DecidableEq, Repr

/-- `normalizeAnalystName` of the source: split on whitespace, first and
last token, nickname-expand the first name, capitalize both. -/
def normalizeAnalystName (analystName : Str) : NormName :=
  let nameParts := wsTokens (jsTrim analystName)
  let firstName := jsToLower (nameParts.headD [])
  let lastName := jsToLower ((nameParts.getLast?).getD [])
  let normalizedFirstName :=
    ((nameVariations.find? (fun p => p.1 = firstName)).map Prod.snd).getD firstName
  let capitalizedFirstName := capitalizeStr normalizedFirstName
  let capitalizedLastName := capitalizeStr lastName
  { normalizedName := capitalizedFirstName ++ ' ' :: capitalizedLastName,
    firstName := capitalizedFirstName,
    lastName := capitalizedLastName }

/- The consolidation engine (`applyCompanyWideAnalystConsolidation`). -/

/-- Insert `x` into the group keyed `k` of an insertion-ordered group
list (the JS `Map` grouping idiom). -/
def insGroup {α K : Type} [DecidableEq K] (k : K) (x : α) :
    List (K × List α) → List (K × List α)
  | [] => [(k, [x])]
  | (k0, l) :: rest =>
    if k0 = k then (k0, l ++ [x]) :: rest else (k0, l) :: insGroup k x rest

/-- Group a list by a key, preserving first-occurrence key order and
within-key element order (the JS `Map`-of-arrays idiom). -/
def groupByKey {α K : Type} [DecidableEq K] (key : α → K) (xs : List α) :
    List (K × List α) :=
  xs.foldl (fun acc x => insGroup (key x) x acc) []

/-- Phase 1, per record: overwrite `analystCompany` with the normalized
operator institution when the operator map knows the (trimmed) raw
analyst name. -/
def applyOperatorToQuestion (m : OpMap) (q : AnalystQuestion) : AnalystQuestion :=
  let analystName := jsTrim q.analystName
  match mapGet m analystName with
  | some operatorCompany =>
    let normalizedCompany := normalizeCompanyName operatorCompany
    if q.analystCompany ≠ normalizedCompany then
      { q with analystCompany := normalizedCompany }
    else q
  | none => q

/-- Phase 1 of `applyCompanyWideAnalystConsolidation`: group by
`transcriptId`, then apply the operator assignments record by record. -/
def transcriptPhase (m : OpMap) (qs : List AnalystQuestion) : List AnalystQuestion :=
  (groupByKey (fun q => q.transcriptId) qs).flatMap
    (fun g => g.2.map (applyOperatorToQuestion m))

/-- An `analystNameGroups` entry of phase 2 (the `originalNames` set of
the source is used only for logging and is omitted). -/
structure NameGroup where
  normalizedName : Str
  knownCompany : Str
  entries : List AnalystQuestion
deriving DecidableEq, Repr

/-- The phase-2 group key of a record: its normalized (trimmed) analyst
name. -/
def keyOf (q : AnalystQuestion) : Str :=
  (normalizeAnalystName (jsTrim q.analystName)).normalizedName

/-- Insert a record into the name group keyed `nn` (the recursion of
`addToNameGroups`). -/
def insNameGroup (q : AnalystQuestion) (nn : Str) : List NameGroup → List NameGroup
  | [] =>
    [{ normalizedName := nn,
       knownCompany := if q.analystCompany ≠ strUnknown then q.analystCompany else [],
       entries := [q] }]
  | g :: rest =>
    if g.normalizedName = nn then
      { g with
        knownCompany :=
          if q.analystCompany ≠ strUnknown then q.analystCompany else g.knownCompany,
        entries := g.entries ++ [q] } :: rest
    else g :: insNameGroup q nn rest

/-- Add one record to the phase-2 name groups: group key is the
normalized analyst name; a non-`'Unknown'` company overwrites the
group's `knownCompany` (initialized to `''`). -/
def addToNameGroups (q : AnalystQuestion) (gs : List NameGroup) : List NameGroup :=
  insNameGroup q (keyOf q) gs

/-- Build the phase-2 name groups of one symbol group, in insertion
order. -/
def buildNameGroups (qs : List AnalystQuestion) : List NameGroup :=
  qs.foldl (fun gs q => addToNameGroups q gs) []

/-- The per-entry update of phase 2: the entry takes the normalized
name, and the `knownCompany` (when nonempty, JS truthiness) overwrites
its company. -/
def groupUpdate (g : NameGroup) (entry : AnalystQuestion) : AnalystQuestion :=
  let e1 :=
    if entry.analystName ≠ g.normalizedName then
      { entry with analystName := g.normalizedName }
    else entry
  if g.knownCompany ≠ [] ∧ e1.analystCompany ≠ g.knownCompany then
    { e1 with analystCompany := g.knownCompany }
  else e1

/-- Consolidate one name group: apply the update to every entry. -/
def consolidateGroup (g : NameGroup) : List AnalystQuestion :=
  g.entries.map (groupUpdate g)

/-- Phase 2 of `applyCompanyWideAnalystConsolidation`: group by symbol,
then by normalized analyst name, and consolidate each group. -/
def symbolPhase (qs : List AnalystQuestion) : List AnalystQuestion :=
  (groupByKey (fun q => q.symbol) qs).flatMap
    (fun sg => (buildNameGroups sg.2).flatMap consolidateGroup)

/-- `applyCompanyWideAnalystConsolidation` of the source: transcript-wide
operator assignments, then company-wide identity consolidation per stock
symbol. -/
def applyCompanyWideAnalystConsolidation (questions : List AnalystQuestion)
    (operatorAnalystInfo : OpMap) : List AnalystQuestion :=
  symbolPhase (transcriptPhase operatorAnalystInfo questions)

/- The extraction functions. -/

/-- A speaker-turn object with the three standard fields. -/
def segObj3 (sp ti co : Str) : JsValue :=
  .jsObj [(str "speaker", .jsStr sp), (str "title", .jsStr ti), (str "content", .jsStr co)]

/-- The text-format fallback of the extraction functions: split on blank
lines and parse `Name (Title): text` paragraphs (captures kept raw, as in
`extractOperatorAnalystInfo` / `extractAnalystQuestionsFromSingleTranscript`). -/
def textSegs (raw : Str) : List JsValue :=
  (splitOnSub raw (str "\n\n")).filterMap fun line =>
    match searchFrom speakerLinePat line false 0 with
    | some m =>
      match capStr line m 1, capStr line m 2, capStr line m 3 with
      | some sp, some ti, some co => some (segObj3 sp ti co)
      | _, _, _ => none
    | none => none

/-- The common parse preamble: `JSON.parse` the content string, falling
back to the text format on a parse error (the `Array.isArray` branch is
unreachable because a stored `content` column is a string). -/
def parseSegments (c : ContentStr) : JsValue :=
  match c.parsed with
  | .ok v => v
  | .error _ => .jsArr (textSegs c.raw)

/-- Scan one operator segment's content with the four introduction
patterns; every match contributes, later matches overwrite earlier ones
for the same cleaned name. -/
def scanOperatorSegment (m0 : OpMap) (content : Str) : OpMap :=
  opPatterns.foldl (fun acc pat =>
    (execAll pat content true).foldl (fun acc2 mr =>
      let analystName0 := jsTrim ((capStr content mr 1).getD [])
      let company0 := jsTrim ((capStr content mr 2).getD [])
      let analystName := jsTrim (replaceAllRx lineOfPat true analystName0)
      let company1 := jsTrim (replaceAllRx fillerPat true company0)
      let company := jsTrim (replaceFirstRx trailPunctPat false company1)
      if 0 < analystName.length ∧ 0 < company.length then mapSet acc2 analystName company
      else acc2) acc) m0

/-- The check `segment.speaker?.toLowerCase().includes('operator')`:
`undefined` and `null` speakers short-circuit to false, non-string
speakers throw. -/
def opSpeakerCheck (seg : JsValue) : Except Unit Bool :=
  match getField seg (str "speaker") with
  | .error e => .error e
  | .ok none => .ok false
  | .ok (some .jsNull) => .ok false
  | .ok (some (.jsStr s)) => .ok (containsSub (jsToLower s) (str "operator"))
  | .ok (some _) => .error ()

/-- One segment of the operator scan: scan the content of a segment
whose speaker is an operator, skip every other segment. -/
def opSegStep (acc : OpMap) (seg : JsValue) : Except Unit OpMap := do
  if ← opSpeakerCheck seg then do
    let coOpt ← getField seg (str "content")
    pure (scanOperatorSegment acc (jsToString (jsOrEmptyStr coOpt)))
  else pure acc

/-- `extractOperatorAnalystInfo` of the source: scan the segments whose
`speaker` field contains `'operator'` (case-insensitively) for
name-institution introductions. -/
def extractOperatorAnalystInfo (transcript : Transcript) : Except Unit OpMap := do
  let segments ← forOfSegs (parseSegments transcript.content)
  segments.foldlM opSegStep []

/-- The `extractCompany` closure of
`extractAnalystQuestionsFromSingleTranscript`: first title pattern whose
cleaned capture is over two characters and not `'unknown'` wins. -/
def extractCompanyFromTitle (title : Str) : Str :=
  go titlePatterns
where
  go : List Rx → Str
    | [] => strUnknown
    | pat :: rest =>
      match searchFrom pat title true 0 with
      | some mr =>
        match capStr title mr 1 with
        | some cap =>
          if cap ≠ [] then
            let company := jsTrim (replaceAllRx titleCleanupPat true (jsTrim cap))
            if 2 < company.length ∧ ¬ containsSub (jsToLower company) (str "unknown") then
              normalizeCompanyName company
            else go rest
          else go rest
        | none => go rest
      | none => go rest

/-- Process one segment of `extractAnalystQuestionsFromSingleTranscript`:
classify the analyst by title, detect a question, attribute the
institution (operator map first, then title), and push the record. -/
def processQuestionSegment (t : Transcript) (opInfo : OpMap)
    (acc : List AnalystQuestion) (seg : JsValue) : Except Unit (List AnalystQuestion) := do
  let speakerName ← getField seg (str "speaker")
  let speakerTitleV ← getField seg (str "title")
  let contentV ← getField seg (str "content")
  let titleStr ← match speakerTitleV with
    | some (.jsStr s) => pure s
    | _ => Except.error ()
  let lowerT := jsToLower titleStr
  let isAnalyst :=
    (containsSub lowerT (str "analyst") || containsSub lowerT (str "research") ||
      containsSub lowerT (str "equity")) &&
    !containsSub lowerT (str "operator") && !containsSub lowerT (str "ceo") &&
    !containsSub lowerT (str "cfo") && !containsSub lowerT (str "investor relations")
  if isAnalyst then do
    let hasQuestion ← match contentV with
      | some (.jsStr s) => pure (containsSub s (str "?") || testRx questionWordsPat s true)
      | some (.jsArr xs) =>
        pure ((xs.any fun v => match v with | .jsStr s => s = str "?" | _ => false) ||
          testRx questionWordsPat (jsToString (.jsArr xs)) true)
      | _ => Except.error ()
    if hasQuestion then do
      let opC := match speakerName with
        | some (.jsStr s) => mapGet opInfo s
        | _ => none
      let analystCompany := match opC with
        | some operatorCompany => normalizeCompanyName operatorCompany
        | none => extractCompanyFromTitle titleStr
      let nameStr ← match speakerName with
        | some (.jsStr s) => pure s
        | _ => Except.error ()
      let contentStr ← match contentV with
        | some (.jsStr s) => pure s
        | _ => Except.error ()
      let rec0 : AnalystQuestion :=
        { analystName := jsTrim nameStr, analystTitle := jsTrim titleStr,
          analystCompany := analystCompany, question := jsTrim contentStr,
          transcriptId := t.id, symbol := t.symbol, quarter := t.quarter,
          year := t.year, transcriptTitle := t.title }
      pure (acc ++ [rec0])
    else pure acc
  else pure acc

/-- `extractAnalystQuestionsFromSingleTranscript` of the source. -/
def extractAnalystQuestionsFromSingleTranscript (transcript : Transcript)
    (operatorAnalystInfo : OpMap) : Except Unit (List AnalystQuestion) := do
  let segments ← forOfSegs (parseSegments transcript.content)
  segments.foldlM (processQuestionSegment transcript operatorAnalystInfo) []

/-- `extractAnalystQuestionsFromMultipleTranscripts` of the source: merge
the per-transcript operator maps (last writer wins), extract with the
global map, consolidate. -/
def extractAnalystQuestionsFromMultipleTranscripts (transcripts : List Transcript) :
    Except Unit (List AnalystQuestion) := do
  let globalMap ← transcripts.foldlM (fun acc t => do
    let operatorInfo ← extractOperatorAnalystInfo t
    pure (operatorInfo.foldl (fun g p => mapSet g p.1 p.2) acc)) []
  let allQuestions ← transcripts.foldlM (fun acc t => do
    let qs ← extractAnalystQuestionsFromSingleTranscript t globalMap
    pure (acc ++ qs)) []
  pure (applyCompanyWideAnalystConsolidation allQuestions globalMap)

/- The prepared-statements extractor (`extractPreparedStatements`). -/

/-- The `executiveTitles` roster of `extractPreparedStatements`. -/
def executiveTitles : List Str :=
  [ str "CEO", str "CFO", str "COO", str "CTO", str "CRO", str "CMO",
    str "Chief Executive Officer", str "Chief Financial Officer",
    str "Chief Operating Officer", str "Chief Technology Officer",
    str "President", str "Vice President", str "VP", str "Senior Vice President",
    str "SVP", str "Executive Vice President", str "EVP", str "Vice-Chairman",
    str "Vice Chairman", str "Chairman", str "Founder", str "Co-Founder",
    str "Managing Director", str "Director" ]

/-- The text-format fallback of `extractPreparedStatements` (this one
trims the captures). -/
def textSegsTrimmed (raw : Str) : List JsValue :=
  (splitOnSub raw (str "\n\n")).filterMap fun line =>
    match searchFrom speakerLinePat line false 0 with
    | some m =>
      match capStr line m 1, capStr line m 2, capStr line m 3 with
      | some sp, some ti, some co => some (segObj3 (jsTrim sp) (jsTrim ti) (jsTrim co))
      | _, _, _ => none
    | none => none

/-- The Q-and-A boundary scan of `extractPreparedStatements`: first turn
whose (lowercased) title contains `'analyst'`, or — at index one or
later — whose title contains `'operator'` and whose content contains
question-session language.  Returns `none` when no turn qualifies;
`.error` models a thrown `TypeError` during the scan. -/
def findQaStartAux (t : Transcript) : List JsValue → Nat → Except Unit (Option Nat)
  | [], _ => pure none
  | sp :: rest, i => do
    let titleF ← getField sp (str "title")
    let tS ← asStr (jsOrEmptyStr titleF)
    let contentF ← getField sp (str "content")
    let cS ← asStr (jsOrEmptyStr contentF)
    let title := jsToLower tS
    let content := jsToLower cS
    let isOperator := containsSub title (str "operator")
    let isAnalyst := containsSub title (str "analyst")
    if isAnalyst then pure (some i)
    else if isOperator && decide (0 < i) &&
        (containsSub content (str "question") ||
         containsSub content (str "next question") ||
         containsSub content (str "first question") ||
         containsSub content (str "our next caller")) then
      pure (some i)
    else findQaStartAux t rest (i + 1)

/-- One step of the prepared-statement `forEach`: classify the speaker by
title, apply the exclusions and the 100-character floor, and build the
record. -/
def prepStep (t : Transcript) (sp : JsValue) : Except Unit (Option PreparedStatement) := do
  let titleF ← getField sp (str "title")
  let titleV := jsOrEmptyStr titleF
  let titleS ← asStr titleV
  let lowerT := jsToLower titleS
  let isExecutive := executiveTitles.any (fun e => containsSub lowerT (jsToLower e))
  let isAnalyst := containsSub lowerT (str "analyst")
  let isOperator := containsSub lowerT (str "operator")
  let isInvestorRelations :=
    containsSub lowerT (str "investor relations") ||
    containsSub lowerT (str "head of investor relations") ||
    containsSub lowerT (str "director of investor relations") ||
    containsSub lowerT (str "vp investor relations") ||
    containsSub lowerT (str "vice president investor relations")
  let contentF ← getField sp (str "content")
  if isExecutive && !isAnalyst && !isOperator && !isInvestorRelations then
    match contentF with
    | some v =>
      if truthy v then do
        let cs ← asStr v
        if 100 < (jsTrim cs).length then do
          let spkF ← getField sp (str "speaker")
          let speakerName := match spkF with
            | some w => if truthy w then w else .jsStr (str "Unknown")
            | none => .jsStr (str "Unknown")
          let rec0 : PreparedStatement :=
            { speakerName := speakerName, speakerTitle := titleS,
              statement := jsTrim cs, transcriptId := t.id, symbol := t.symbol,
              quarter := t.quarter, year := t.year, transcriptTitle := t.title }
          pure (some rec0)
        else pure none
      else pure none
    | none => pure none
  else pure none

/-- The prepared-statement `forEach` over the pre-boundary speakers; a
thrown `TypeError` aborts the loop, and the outer `catch` keeps the
records pushed so far. -/
def collectPrepared (t : Transcript) : List JsValue → List PreparedStatement
  | [] => []
  | sp :: rest =>
    match prepStep t sp with
    | .ok (some r) => r :: collectPrepared t rest
    | .ok none => collectPrepared t rest
    | .error _ => []

/-- The post-parse body of `extractPreparedStatements`: locate the
Q-and-A boundary and collect executive statements strictly before it. -/
def prepFromSpeakers (t : Transcript) (speakers : List JsValue) : List PreparedStatement :=
  match findQaStartAux t speakers 0 with
  | .error _ => []
  | .ok idxOpt =>
    let qaStartIndex := idxOpt.getD speakers.length
    collectPrepared t (speakers.take qaStartIndex)

/-- `extractPreparedStatements` of the source.  The whole body is inside
`try { … } catch`, so the function is total; a parse failure or a thrown
`TypeError` yields the statements accumulated so far. -/
def extractPreparedStatements (transcript : Transcript) : List PreparedStatement :=
  let tr := jsTrim transcript.content.raw
  if startsWithStr tr (str "[") || startsWithStr tr (str "\x7b") then
    match transcript.content.parsed with
    | .error _ => []
    | .ok v =>
      match v with
      | .jsArr speakers => prepFromSpeakers transcript speakers
      | _ => []
  else
    prepFromSpeakers transcript (textSegsTrimmed transcript.content.raw)

/- Tokenization, trimming and name-normalization lemmas. -/

/-- A string with no whitespace characters. -/
def NoWs (w : Str) : Prop := ∀ c ∈ w, isWs c = false

theorem map_eq_self_of_mem {f : Char → Char} {l : Str} (h : ∀ c ∈ l, f c = c) :
    l.map f = l := by
  induction l with
  | nil => rfl
  | cons c t ih =>
    simp only [List.map_cons, h c (List.mem_cons_self c t)]
    rw [ih (fun d hd => h d (List.mem_cons_of_mem c hd))]

theorem mem_of_map_eq_self {f : Char → Char} {l : Str} (h : l.map f = l) :
    ∀ c ∈ l, f c = c := by
  induction l with
  | nil => intro c hc; cases hc
  | cons c t ih =>
    simp only [List.map_cons, List.cons.injEq] at h
    intro d hd
    rcases List.mem_cons.1 hd with h1 | h2
    · rw [h1]; exact h.1
    · exact ih h.2 d h2

theorem wsTokensAux_append_noWs {w : Str} (hw : NoWs w) (cur rest : Str) :
    wsTokensAux cur (w ++ rest) = wsTokensAux (w.reverse ++ cur) rest := by
  induction w generalizing cur with
  | nil => simp
  | cons c t ih =>
    have hc : isWs c = false := hw c (List.mem_cons_self c t)
    have ht : NoWs t := fun d hd => hw d (List.mem_cons_of_mem c hd)
    simp only [List.cons_append, wsTokensAux, hc, Bool.false_eq_true, if_false,
      List.reverse_cons, List.append_eq]
    rw [ih ht (c :: cur)]
    simp

theorem wsTokens_single {w : Str} (hne : w ≠ []) (hw : NoWs w) : wsTokens w = [w] := by
  have h := wsTokensAux_append_noWs hw [] []
  simp only [List.append_nil] at h
  simp only [wsTokens, h, wsTokensAux]
  have : w.reverse ≠ [] := by simpa using hne
  simp [this]

theorem wsTokens_pair {w1 w2 : Str} (h1 : w1 ≠ []) (hw1 : NoWs w1)
    (h2 : w2 ≠ []) (hw2 : NoWs w2) : wsTokens (w1 ++ ' ' :: w2) = [w1, w2] := by
  have ha := wsTokensAux_append_noWs hw1 [] (' ' :: w2)
  simp only [List.append_nil] at ha
  have hr1 : w1.reverse ≠ [] := by simpa using h1
  have hb := wsTokensAux_append_noWs hw2 [] ([] : Str)
  simp only [List.append_nil] at hb
  have hr2 : w2.reverse ≠ [] := by simpa using h2
  have hsp : isWs ' ' = true := rfl
  simp only [wsTokens, ha, wsTokensAux, hsp, if_true, hr1, if_false, List.reverse_reverse]
  rw [← wsTokens, wsTokens_single h2 hw2]

theorem wsTokensAux_prop (s : Str) :
    ∀ cur, NoWs cur → ∀ t ∈ wsTokensAux cur s, t ≠ [] ∧ NoWs t := by
  induction s with
  | nil =>
    intro cur hcur t ht
    by_cases h : cur = []
    · simp [wsTokensAux, h] at ht
    · simp only [wsTokensAux, h, if_false] at ht
      simp only [List.mem_singleton] at ht
      subst ht
      refine ⟨by simpa using h, fun c hc => hcur c (List.mem_reverse.1 hc)⟩
  | cons c s ih =>
    intro cur hcur t ht
    by_cases hc : isWs c = true
    · by_cases hcn : cur = []
      · simp only [wsTokensAux, hc, hcn, if_true] at ht
        exact ih [] (fun d hd => absurd hd (List.not_mem_nil d)) t ht
      · simp only [wsTokensAux, hc, hcn, if_true, if_false, List.mem_cons] at ht
        rcases ht with h1 | h2
        · subst h1
          exact ⟨by simpa using hcn, fun d hd => hcur d (List.mem_reverse.1 hd)⟩
        · exact ih [] (fun d hd => absurd hd (List.not_mem_nil d)) t h2
    · simp only [wsTokensAux, hc, if_false] at ht
      have : NoWs (c :: cur) := by
        intro d hd
        rcases List.mem_cons.1 hd with h1 | h2
        · rw [h1]; simpa using hc
        · exact hcur d h2
      exact ih (c :: cur) this t ht

theorem wsTokens_prop {s : Str} : ∀ t ∈ wsTokens s, t ≠ [] ∧ NoWs t :=
  wsTokensAux_prop s [] (fun d hd => absurd hd (List.not_mem_nil d))

theorem jsTrim_eq_self {s : Str} (hh : isWs (s.headD 'a') = false)
    (hl : isWs (s.getLastD 'a') = false) : jsTrim s = s := by
  match s with
  | [] => rfl
  | c :: t =>
    have hh' : isWs c = false := by simpa using hh
    have h1 : List.dropWhile isWs (c :: t) = c :: t := by
      rw [List.dropWhile_cons, hh']
      simp
    have h2 : (c :: t).reverse ≠ [] := by simp
    obtain ⟨d, u, hdu⟩ := List.exists_cons_of_ne_nil h2
    have h4 : ((c :: t).reverse).head? = some d := by rw [hdu]; rfl
    have h5 : (c :: t).getLast? = some d := by rw [← List.head?_reverse]; exact h4
    have hd : (c :: t).getLastD 'a' = d := by
      rw [List.getLastD_eq_getLast?, h5]
      rfl
    rw [hd] at hl
    have h3 : List.dropWhile isWs ((c :: t).reverse) = (c :: t).reverse := by
      rw [hdu, List.dropWhile_cons, hl]
      simp
    simp only [jsTrim, h1, h3, List.reverse_reverse]

/-- The canonical (normalized) analyst display name. -/
def canonName (s : Str) : Str := (normalizeAnalystName s).normalizedName

/-- The nickname table maps to lowercase, nonempty, whitespace-free
names that are themselves not keys of the table. -/
theorem nameVariations_snd_prop : ∀ p ∈ nameVariations,
    jsToLower p.2 = p.2 ∧ p.2 ≠ [] ∧ (∀ c ∈ p.2, isWs c = false) ∧
    nameVariations.find? (fun q => q.1 = p.2) = none := by decide

/-- Properties of `capitalizeStr` on a lowercase, whitespace-free,
nonempty word. -/
theorem capitalizeStr_prop {w : Str} (hne : w ≠ []) (hlc : jsToLower w = w)
    (hws : NoWs w) :
    capitalizeStr w ≠ [] ∧ NoWs (capitalizeStr w) ∧
      jsToLower (capitalizeStr w) = w := by
  match w, hne with
  | c :: cs, _ =>
    have hc : lowerChar c = c := mem_of_map_eq_self hlc c (List.mem_cons_self c cs)
    have hcs : cs.map lowerChar = cs := by
      have h2 : lowerChar c :: List.map lowerChar cs = c :: cs := by
        simpa [jsToLower] using hlc
      injection h2
    refine ⟨by simp [capitalizeStr], ?_, ?_⟩
    · intro d hd
      simp only [capitalizeStr] at hd
      rcases List.mem_cons.1 hd with h1 | h2
      · rw [h1, isWs_upperChar]
        exact hws c (List.mem_cons_self c cs)
      · exact hws d (List.mem_cons_of_mem c h2)
    · simp only [capitalizeStr, jsToLower, List.map_cons, hcs]
      rw [lowerChar_upperChar hc]

/-- Name normalization is idempotent: normalizing an already-normalized
display name changes nothing. -/
theorem canonName_idem (s : Str) : canonName (canonName s) = canonName s := by
  cases h : wsTokens (jsTrim s) with
  | nil =>
    have hs : canonName s = [' '] := by
      simp [canonName, normalizeAnalystName, h, jsToLower]
      decide
    rw [hs]
    decide
  | cons t ts =>
    have htok := @wsTokens_prop (jsTrim s)
    rw [h] at htok
    have hhead : (wsTokens (jsTrim s)).headD [] = t := by rw [h]; rfl
    have hLex : (t :: ts).getLast? = some ((t :: ts).getLast (List.cons_ne_nil t ts)) :=
      List.getLast?_eq_getLast _ _
    set L := (t :: ts).getLast (List.cons_ne_nil t ts) with hLdef
    have hlast : (wsTokens (jsTrim s)).getLast?.getD [] = L := by rw [h, hLex]; rfl
    have htmem : t ∈ (t :: ts) := List.mem_cons_self t ts
    have hLmem : L ∈ (t :: ts) := List.getLast_mem _
    obtain ⟨htne, htws⟩ := htok t htmem
    obtain ⟨hLne, hLws⟩ := htok L hLmem
    set f := jsToLower t with hfdef
    set l := jsToLower L with hldef
    have hfne : f ≠ [] := by simpa [hfdef, jsToLower] using htne
    have hlne : l ≠ [] := by simpa [hldef, jsToLower] using hLne
    have hflc : jsToLower f = f := by
      simp only [hfdef, jsToLower, List.map_map]
      exact List.map_congr_left (fun c _ => lowerChar_lowerChar c)
    have hllc : jsToLower l = l := by
      simp only [hldef, jsToLower, List.map_map]
      exact List.map_congr_left (fun c _ => lowerChar_lowerChar c)
    have hfws : NoWs f := by
      intro c hc
      simp only [hfdef, jsToLower, List.mem_map] at hc
      obtain ⟨d, hd, hdc⟩ := hc
      rw [← hdc, isWs_lowerChar]
      exact htws d hd
    have hlws : NoWs l := by
      intro c hc
      simp only [hldef, jsToLower, List.mem_map] at hc
      obtain ⟨d, hd, hdc⟩ := hc
      rw [← hdc, isWs_lowerChar]
      exact hLws d hd
    -- the normalized first name and its properties
    set nf := ((nameVariations.find? (fun p => p.1 = f)).map Prod.snd).getD f with hnfdef
    have hnf : nf ≠ [] ∧ jsToLower nf = nf ∧ NoWs nf ∧
        nameVariations.find? (fun q => q.1 = nf) = none := by
      cases hfind : nameVariations.find? (fun p => p.1 = f) with
      | none =>
        have : nf = f := by simp [hnfdef, hfind]
        rw [this]
        exact ⟨hfne, hflc, hfws, hfind⟩
      | some p =>
        have hmem := List.mem_of_find?_eq_some hfind
        obtain ⟨h1, h2, h3, h4⟩ := nameVariations_snd_prop p hmem
        have : nf = p.2 := by simp [hnfdef, hfind]
        rw [this]
        exact ⟨h2, h1, h3, h4⟩
    obtain ⟨hnfne, hnflc, hnfws, hnffind⟩ := hnf
    obtain ⟨hcfne, hcfws, hcflow⟩ := capitalizeStr_prop hnfne hnflc hnfws
    obtain ⟨hclne, hclws, hcllow⟩ := capitalizeStr_prop hlne hllc hlws
    -- the normalized name
    have hN : canonName s = capitalizeStr nf ++ ' ' :: capitalizeStr l := by
      simp only [canonName, normalizeAnalystName, hhead, hlast, ← hfdef, ← hldef, ← hnfdef]
    set N := capitalizeStr nf ++ ' ' :: capitalizeStr l with hNdef
    -- N is its own trim
    have hNne : N ≠ [] := by simp [hNdef, hcfne]
    have hNhead : isWs (N.headD 'a') = false := by
      match hcf : capitalizeStr nf, hcfne with
      | c :: cs, _ =>
        have : N.headD 'a' = c := by rw [hNdef, hcf]; rfl
        rw [this]
        exact hcfws c (by rw [hcf]; exact List.mem_cons_self c cs)
    have hNlast : isWs (N.getLastD 'a') = false := by
      have h1 : N.getLast? = (capitalizeStr l).getLast? := by
        rw [hNdef]
        rw [show capitalizeStr nf ++ ' ' :: capitalizeStr l
            = (capitalizeStr nf ++ [' ']) ++ capitalizeStr l by simp]
        rw [List.getLast?_append]
        cases hgl : (capitalizeStr l).getLast? with
        | none =>
          exact absurd (List.getLast?_eq_none_iff.1 hgl) hclne
        | some x => rfl
      cases hgl : (capitalizeStr l).getLast? with
      | none => exact absurd (List.getLast?_eq_none_iff.1 hgl) hclne
      | some x =>
        have hxmem : x ∈ capitalizeStr l := by
          obtain ⟨hh, hx⟩ := List.mem_getLast?_eq_getLast (by rw [hgl]; rfl)
          rw [hx]
          exact List.getLast_mem hh
        have : N.getLastD 'a' = x := by
          rw [List.getLastD_eq_getLast?, h1, hgl]
          rfl
        rw [this]
        exact hclws x hxmem
    have hNtrim : jsTrim N = N := jsTrim_eq_self hNhead hNlast
    -- tokens of N
    have hNtok : wsTokens (jsTrim N) = [capitalizeStr nf, capitalizeStr l] := by
      rw [hNtrim, hNdef]
      exact wsTokens_pair hcfne hcfws hclne hclws
    -- normalize N
    have hhead2 : (wsTokens (jsTrim N)).headD [] = capitalizeStr nf := by rw [hNtok]; rfl
    have hlast2 : (wsTokens (jsTrim N)).getLast?.getD [] = capitalizeStr l := by
      rw [hNtok]; rfl
    have hfind2 : nameVariations.find? (fun p => p.1 = jsToLower (capitalizeStr nf)) = none := by
      rw [hcflow]
      exact hnffind
    rw [hN]
    simp only [canonName, normalizeAnalystName, hhead2, hlast2, hcflow, hcllow, hfind2,
      hnffind, Option.map_none, Option.getD_none]
    simp [hNdef]

/- Grouping lemmas: the JS `Map`-of-arrays idiom (`groupByKey`) and the
phase-2 name groups. -/

theorem insGroup_flat_perm {α K : Type} [DecidableEq K] (k : K) (x : α)
    (gs : List (K × List α)) :
    ((insGroup k x gs).flatMap Prod.snd).Perm (x :: gs.flatMap Prod.snd) := by
  induction gs with
  | nil => simp [insGroup]
  | cons g rest ih =>
    by_cases h : g.1 = k
    · simp only [insGroup, h, if_true, List.flatMap_cons]
      have he : g.2 ++ [x] ++ rest.flatMap Prod.snd = g.2 ++ x :: rest.flatMap Prod.snd := by
        simp
      rw [he]
      exact List.perm_middle
    · simp only [insGroup, h, if_false, List.flatMap_cons]
      have s1 : (g.2 ++ (insGroup k x rest).flatMap Prod.snd).Perm
          (g.2 ++ x :: rest.flatMap Prod.snd) := List.Perm.append_left g.2 ih
      exact s1.trans List.perm_middle

theorem groupByKey_flat_perm {α K : Type} [DecidableEq K] (key : α → K) (xs : List α) :
    ((groupByKey key xs).flatMap Prod.snd).Perm xs := by
  induction xs using List.reverseRecOn with
  | nil => simp [groupByKey]
  | append_singleton ys x ih =>
    have h1 : groupByKey key (ys ++ [x]) = insGroup (key x) x (groupByKey key ys) := by
      simp [groupByKey, List.foldl_append]
    rw [h1]
    have t1 := insGroup_flat_perm (key x) x (groupByKey key ys)
    have t2 : (x :: (groupByKey key ys).flatMap Prod.snd).Perm (x :: ys) := ih.cons x
    have t3 : (x :: ys).Perm (ys ++ [x]) := by
      have := (@List.perm_middle _ x ys []).symm
      simpa using this
    exact t1.trans (t2.trans t3)

/-- The head of a `dropWhile isWs` result is not whitespace. -/
theorem dropWhile_head_prop : ∀ {s : Str} {c : Char},
    (List.dropWhile isWs s).head? = some c → isWs c = false := by
  intro s
  induction s with
  | nil => intro c h; cases h
  | cons d t ih =>
    intro c h
    by_cases hd : isWs d = true
    · rw [List.dropWhile_cons, if_pos hd] at h
      exact ih h
    · rw [List.dropWhile_cons, if_neg hd] at h
      cases h
      simpa using hd

/-- The last element of a nonempty suffix is the last element of the
list. -/
theorem getLast?_of_suffix {u l : Str} (h : u <:+ l) (hu : u ≠ []) :
    u.getLast? = l.getLast? := by
  obtain ⟨t, ht⟩ := h
  rw [← ht, List.getLast?_append]
  cases hg : u.getLast? with
  | none => exact absurd (List.getLast?_eq_none_iff.1 hg) hu
  | some x => rfl

/-- Trimming is idempotent. -/
theorem jsTrim_idem (s : Str) : jsTrim (jsTrim s) = jsTrim s := by
  by_cases h : jsTrim s = []
  · rw [h]; rfl
  · apply jsTrim_eq_self
    · -- the head of the trimmed string is its source's first kept char
      have hB : (jsTrim s) = (List.dropWhile isWs ((List.dropWhile isWs s).reverse)).reverse := rfl
      set A := List.dropWhile isWs s with hA
      set B := List.dropWhile isWs A.reverse with hBdef
      have hBne : B ≠ [] := by
        intro hc
        apply h
        rw [hB, hc]
        rfl
      have h1 : (jsTrim s).head? = B.getLast? := by rw [hB, List.head?_reverse]
      have h2 : B.getLast? = A.reverse.getLast? :=
        getLast?_of_suffix (List.dropWhile_suffix isWs) hBne
      have h3 : A.reverse.getLast? = A.head? := List.getLast?_reverse A
      cases hh : A.head? with
      | none =>
        have : A.reverse = [] := by
          rw [List.reverse_eq_nil_iff]
          exact List.head?_eq_none_iff.1 hh
        rw [hBdef, this] at hBne
        exact absurd rfl hBne
      | some c =>
        have hc : isWs c = false := dropWhile_head_prop (s := s) (by rw [← hA]; exact hh)
        have : (jsTrim s).head? = some c := by rw [h1, h2, h3, hh]
        rw [List.headD_eq_head?, this]
        exact hc
    · have hB : (jsTrim s) = (List.dropWhile isWs ((List.dropWhile isWs s).reverse)).reverse := rfl
      set A := List.dropWhile isWs s with hA
      set B := List.dropWhile isWs A.reverse with hBdef
      have hBne : B ≠ [] := by
        intro hc
        apply h
        rw [hB, hc]
        rfl
      have h1 : (jsTrim s).getLast? = B.head? := by rw [hB, List.getLast?_reverse]
      cases hh : B.head? with
      | none => exact absurd (List.head?_eq_none_iff.1 hh) hBne
      | some c =>
        have hc : isWs c = false := dropWhile_head_prop (s := A.reverse) (by rw [← hBdef]; exact hh)
        have : (jsTrim s).getLast? = some c := by rw [h1, hh]
        rw [List.getLastD_eq_getLast?, this]
        exact hc

/-- Normalization ignores an outer trim (it trims internally). -/
theorem canonName_jsTrim (s : Str) : canonName (jsTrim s) = canonName s := by
  simp only [canonName, normalizeAnalystName, jsTrim_idem]

/-- Keys after a group insert: unchanged if present, appended if new. -/
theorem insGroup_keys {α K : Type} [DecidableEq K] (k : K) (x : α)
    (gs : List (K × List α)) :
    (insGroup k x gs).map Prod.fst =
      if k ∈ gs.map Prod.fst then gs.map Prod.fst else gs.map Prod.fst ++ [k] := by
  induction gs with
  | nil => simp [insGroup]
  | cons g rest ih =>
    by_cases h : g.1 = k
    · simp [insGroup, h]
    · have hne : ¬ k = g.1 := fun hc => h hc.symm
      simp only [insGroup, h, if_false, List.map_cons, List.mem_cons, hne, false_or]
      rw [ih]
      by_cases h2 : k ∈ rest.map Prod.fst
      · simp [h2]
      · simp [h2]

/-- Where a group list element can come from after an insert (assuming
distinct keys). -/
theorem insGroup_cases {α K : Type} [DecidableEq K] {k : K} {x : α} :
    ∀ gs : List (K × List α), (gs.map Prod.fst).Nodup →
    ∀ p ∈ insGroup k x gs,
      (∃ l, (k, l) ∈ gs ∧ p = (k, l ++ [x])) ∨
      (k ∉ gs.map Prod.fst ∧ p = (k, [x])) ∨ (p ∈ gs ∧ p.1 ≠ k) := by
  intro gs
  induction gs with
  | nil =>
    intro _ p hp
    simp only [insGroup, List.mem_singleton] at hp
    exact Or.inr (Or.inl ⟨by simp, hp⟩)
  | cons g rest ih =>
    intro hnd p hp
    have hnd1 : (rest.map Prod.fst).Nodup := (List.nodup_cons.1 hnd).2
    have hg1 : g.1 ∉ rest.map Prod.fst := (List.nodup_cons.1 hnd).1
    by_cases h : g.1 = k
    · simp only [insGroup, h, if_true, List.mem_cons] at hp
      rcases hp with h1 | h2
      · refine Or.inl ⟨g.2, ?_, ?_⟩
        · rw [← h]
          exact List.mem_cons_self g rest
        · rw [h1, ← h]
      · refine Or.inr (Or.inr ⟨List.mem_cons_of_mem g h2, ?_⟩)
        intro hc
        apply hg1
        rw [h, ← hc]
        exact List.mem_map_of_mem Prod.fst h2
    · simp only [insGroup, h, if_false, List.mem_cons] at hp
      rcases hp with h1 | h2
      · exact Or.inr (Or.inr ⟨by rw [h1]; exact List.mem_cons_self g rest, by rw [h1]; exact h⟩)
      · rcases ih hnd1 p h2 with ⟨l, hl, hp'⟩ | ⟨hnk, hp'⟩ | ⟨hpg, hpk⟩
        · exact Or.inl ⟨l, List.mem_cons_of_mem g hl, hp'⟩
        · refine Or.inr (Or.inl ⟨?_, hp'⟩)
          simp only [List.map_cons, List.mem_cons]
          rintro (hc | hc)
          · exact h hc.symm
          · exact hnk hc
        · exact Or.inr (Or.inr ⟨List.mem_cons_of_mem g hpg, hpk⟩)

/-- Characterization of `groupByKey`: distinct keys covering the input,
and each group holding exactly its key's occurrences, in input order. -/
theorem groupByKey_char {α K : Type} [DecidableEq K] (key : α → K) (xs : List α) :
    ((groupByKey key xs).map Prod.fst).Nodup ∧
    (∀ x ∈ xs, key x ∈ (groupByKey key xs).map Prod.fst) ∧
    (∀ p ∈ groupByKey key xs, p.2 = xs.filter (fun x => key x = p.1)) := by
  induction xs using List.reverseRecOn with
  | nil => simp [groupByKey]
  | append_singleton ys x ih =>
    obtain ⟨ih1, ih2, ih3⟩ := ih
    have hstep : groupByKey key (ys ++ [x]) = insGroup (key x) x (groupByKey key ys) := by
      simp [groupByKey, List.foldl_append]
    refine ⟨?_, ?_, ?_⟩
    · rw [hstep, insGroup_keys]
      by_cases h : key x ∈ (groupByKey key ys).map Prod.fst
      · simp only [h, if_true]
        exact ih1
      · simp only [h, if_false]
        simp [List.nodup_append, ih1, h]
    · intro y hy
      rw [hstep, insGroup_keys]
      rcases List.mem_append.1 hy with h1 | h2
      · have hm := ih2 y h1
        by_cases h : key x ∈ (groupByKey key ys).map Prod.fst
        · simpa [h] using hm
        · simp only [h, if_false]
          exact List.mem_append_left _ hm
      · have : y = x := by simpa using h2
        subst this
        by_cases h : key y ∈ (groupByKey key ys).map Prod.fst
        · simp [h]
        · simp [h]
    · intro p hp
      rw [hstep] at hp
      rcases insGroup_cases _ ih1 p hp with ⟨l, hl, hp'⟩ | ⟨hnk, hp'⟩ | ⟨hpg, hpk⟩
      · have hfl := ih3 (key x, l) hl
        simp only at hfl
        rw [hp']
        simp only [List.filter_append]
        rw [← hfl]
        simp
      · rw [hp']
        simp only [List.filter_append]
        have hys : ys.filter (fun y => key y = key x) = [] := by
          rw [List.filter_eq_nil_iff]
          intro a ha hc
          exact hnk (by
            have : key a = key x := by simpa using hc
            rw [← this]
            exact ih2 a ha)
        rw [hys]
        simp
      · have hfl := ih3 p hpg
        rw [hfl]
        simp only [List.filter_append]
        have hx : [x].filter (fun y => key y = p.1) = [] := by
          simp only [List.filter_cons, List.filter_nil]
          have : ¬ key x = p.1 := fun hc => hpk (by rw [← hc])
          simp [this]
        rw [hx]
        simp

/-- The running `knownCompany` of a record list: the last
non-`'Unknown'` company, or `''`. -/
def kcOf (l : List AnalystQuestion) : Str :=
  l.foldl (fun acc q => if q.analystCompany ≠ strUnknown then q.analystCompany else acc) []

theorem kcOf_append (l : List AnalystQuestion) (q : AnalystQuestion) :
    kcOf (l ++ [q]) =
      if q.analystCompany ≠ strUnknown then q.analystCompany else kcOf l := by
  simp [kcOf, List.foldl_append]

theorem insNameGroup_flat_perm (q : AnalystQuestion) (nn : Str) (gs : List NameGroup) :
    ((insNameGroup q nn gs).flatMap NameGroup.entries).Perm
      (q :: gs.flatMap NameGroup.entries) := by
  induction gs with
  | nil => simp [insNameGroup]
  | cons g rest ih =>
    by_cases h : g.normalizedName = nn
    · simp only [insNameGroup, h, if_true, List.flatMap_cons]
      have he : g.entries ++ [q] ++ rest.flatMap NameGroup.entries
          = g.entries ++ q :: rest.flatMap NameGroup.entries := by simp
      rw [he]
      exact List.perm_middle
    · simp only [insNameGroup, h, if_false, List.flatMap_cons]
      have s1 : (g.entries ++ (insNameGroup q nn rest).flatMap NameGroup.entries).Perm
          (g.entries ++ q :: rest.flatMap NameGroup.entries) :=
        List.Perm.append_left g.entries ih
      exact s1.trans List.perm_middle

theorem buildNameGroups_flat_perm (qs : List AnalystQuestion) :
    ((buildNameGroups qs).flatMap NameGroup.entries).Perm qs := by
  induction qs using List.reverseRecOn with
  | nil => simp [buildNameGroups]
  | append_singleton ys x ih =>
    have h1 : buildNameGroups (ys ++ [x]) = insNameGroup x (keyOf x) (buildNameGroups ys) := by
      simp [buildNameGroups, List.foldl_append, addToNameGroups]
    rw [h1]
    have t1 := insNameGroup_flat_perm x (keyOf x) (buildNameGroups ys)
    have t2 : (x :: (buildNameGroups ys).flatMap NameGroup.entries).Perm (x :: ys) := ih.cons x
    have t3 : (x :: ys).Perm (ys ++ [x]) := by
      have := (@List.perm_middle _ x ys []).symm
      simpa using this
    exact t1.trans (t2.trans t3)

theorem insNameGroup_keys (q : AnalystQuestion) (nn : Str) (gs : List NameGroup) :
    (insNameGroup q nn gs).map NameGroup.normalizedName =
      if nn ∈ gs.map NameGroup.normalizedName then gs.map NameGroup.normalizedName
      else gs.map NameGroup.normalizedName ++ [nn] := by
  induction gs with
  | nil => simp [insNameGroup]
  | cons g rest ih =>
    by_cases h : g.normalizedName = nn
    · simp [insNameGroup, h]
    · have hne : ¬ nn = g.normalizedName := fun hc => h hc.symm
      simp only [insNameGroup, h, if_false, List.map_cons, List.mem_cons, hne, false_or]
      rw [ih]
      by_cases h2 : nn ∈ rest.map NameGroup.normalizedName
      · simp [h2]
      · simp [h2]

theorem insNameGroup_cases {q : AnalystQuestion} {nn : Str} :
    ∀ gs : List NameGroup, (gs.map NameGroup.normalizedName).Nodup →
    ∀ g' ∈ insNameGroup q nn gs,
      (∃ g ∈ gs, g.normalizedName = nn ∧
        g' = { g with
                knownCompany :=
                  if q.analystCompany ≠ strUnknown then q.analystCompany else g.knownCompany,
                entries := g.entries ++ [q] }) ∨
      (nn ∉ gs.map NameGroup.normalizedName ∧
        g' = { normalizedName := nn,
               knownCompany := if q.analystCompany ≠ strUnknown then q.analystCompany else [],
               entries := [q] }) ∨
      (g' ∈ gs ∧ g'.normalizedName ≠ nn) := by
  intro gs
  induction gs with
  | nil =>
    intro _ g' hg'
    simp only [insNameGroup, List.mem_singleton] at hg'
    exact Or.inr (Or.inl ⟨by simp, hg'⟩)
  | cons g rest ih =>
    intro hnd g' hg'
    have hnd1 : (rest.map NameGroup.normalizedName).Nodup := (List.nodup_cons.1 hnd).2
    have hg1 : g.normalizedName ∉ rest.map NameGroup.normalizedName := (List.nodup_cons.1 hnd).1
    by_cases h : g.normalizedName = nn
    · simp only [insNameGroup, h, if_true, List.mem_cons] at hg'
      rcases hg' with h1 | h2
      · refine Or.inl ⟨g, List.mem_cons_self g rest, h, ?_⟩
        rw [h1, h]
      · refine Or.inr (Or.inr ⟨List.mem_cons_of_mem g h2, ?_⟩)
        intro hc
        apply hg1
        rw [h, ← hc]
        exact List.mem_map_of_mem NameGroup.normalizedName h2
    · simp only [insNameGroup, h, if_false, List.mem_cons] at hg'
      rcases hg' with h1 | h2
      · exact Or.inr (Or.inr ⟨by rw [h1]; exact List.mem_cons_self g rest, by rw [h1]; exact h⟩)
      · rcases ih hnd1 g' h2 with ⟨g0, hg0, hk, hp'⟩ | ⟨hnk, hp'⟩ | ⟨hpg, hpk⟩
        · exact Or.inl ⟨g0, List.mem_cons_of_mem g hg0, hk, hp'⟩
        · refine Or.inr (Or.inl ⟨?_, hp'⟩)
          simp only [List.map_cons, List.mem_cons]
          rintro (hc | hc)
          · exact h hc.symm
          · exact hnk hc
        · exact Or.inr (Or.inr ⟨List.mem_cons_of_mem g hpg, hpk⟩)

/-- Characterization of the phase-2 name groups: distinct keys covering
the records; each group holds exactly its key's records, in input order,
and its `knownCompany` is the running last non-`'Unknown'` company of
its entries. -/
theorem buildNameGroups_char (qs : List AnalystQuestion) :
    ((buildNameGroups qs).map NameGroup.normalizedName).Nodup ∧
    (∀ q ∈ qs, keyOf q ∈ (buildNameGroups qs).map NameGroup.normalizedName) ∧
    (∀ g ∈ buildNameGroups qs,
      g.entries = qs.filter (fun q => keyOf q = g.normalizedName) ∧
      g.knownCompany = kcOf g.entries) := by
  induction qs using List.reverseRecOn with
  | nil => simp [buildNameGroups]
  | append_singleton ys x ih =>
    obtain ⟨ih1, ih2, ih3⟩ := ih
    have hstep : buildNameGroups (ys ++ [x]) = insNameGroup x (keyOf x) (buildNameGroups ys) := by
      simp [buildNameGroups, List.foldl_append, addToNameGroups]
    refine ⟨?_, ?_, ?_⟩
    · rw [hstep, insNameGroup_keys]
      by_cases h : keyOf x ∈ (buildNameGroups ys).map NameGroup.normalizedName
      · simp only [h, if_true]
        exact ih1
      · simp only [h, if_false]
        simp [List.nodup_append, ih1, h]
    · intro y hy
      rw [hstep, insNameGroup_keys]
      rcases List.mem_append.1 hy with h1 | h2
      · have hm := ih2 y h1
        by_cases h : keyOf x ∈ (buildNameGroups ys).map NameGroup.normalizedName
        · simpa [h] using hm
        · simp only [h, if_false]
          exact List.mem_append_left _ hm
      · have : y = x := by simpa using h2
        subst this
        by_cases h : keyOf y ∈ (buildNameGroups ys).map NameGroup.normalizedName
        · simp [h]
        · simp [h]
    · intro g hg
      rw [hstep] at hg
      rcases insNameGroup_cases _ ih1 g hg with ⟨g0, hg0, hk, hp'⟩ | ⟨hnk, hp'⟩ | ⟨hpg, hpk⟩
      · obtain ⟨he0, hkc0⟩ := ih3 g0 hg0
        constructor
        · rw [hp']
          simp only [List.filter_append, hk]
          rw [he0, hk]
          simp
        · rw [hp']
          simp only [kcOf_append]
          rw [hkc0]
      · constructor
        · rw [hp']
          simp only [List.filter_append]
          have hys : ys.filter (fun q => keyOf q = keyOf x) = [] := by
            rw [List.filter_eq_nil_iff]
            intro a ha hc
            exact hnk (by
              have : keyOf a = keyOf x := by simpa using hc
              rw [← this]
              exact ih2 a ha)
          rw [hys]
          simp
        · rw [hp']
          simp [kcOf]
      · obtain ⟨he0, hkc0⟩ := ih3 g hpg
        refine ⟨?_, hkc0⟩
        rw [he0]
        simp only [List.filter_append]
        have hx : [x].filter (fun q => keyOf q = g.normalizedName) = [] := by
          simp only [List.filter_cons, List.filter_nil]
          have : ¬ keyOf x = g.normalizedName := fun hc => hpk (by rw [← hc])
          simp [this]
        rw [hx]
        simp

/- Shape lemmas for the two consolidation phases. -/

/-- The closed form of the per-entry update. -/
theorem ite_name_update (e : AnalystQuestion) (k : Str) :
    (if e.analystName ≠ k then { e with analystName := k } else e)
      = { e with analystName := k } := by
  by_cases h : e.analystName ≠ k
  · rw [if_pos h]
  · rw [if_neg h]
    push_neg at h
    cases e
    simp_all

theorem groupUpdate_eq (g : NameGroup) (e : AnalystQuestion) :
    groupUpdate g e =
      if g.knownCompany ≠ [] then
        { e with analystName := g.normalizedName, analystCompany := g.knownCompany }
      else { e with analystName := g.normalizedName } := by
  simp only [groupUpdate, ite_name_update]
  by_cases h1 : g.knownCompany = []
  · simp [h1]
  · by_cases h2 : e.analystCompany = g.knownCompany
    · simp [h1, h2]
    · simp [h1, h2]

/-- The non-company fields of a record (the frame of consolidation). -/
def frameOf (q : AnalystQuestion) : Str × Str × Nat × Str × Str × Int × Str :=
  (q.question, q.analystTitle, q.transcriptId, q.symbol, q.quarter, q.year, q.transcriptTitle)

theorem frameOf_applyOperator (m : OpMap) (q : AnalystQuestion) :
    frameOf (applyOperatorToQuestion m q) = frameOf q := by
  simp only [applyOperatorToQuestion]
  cases mapGet m (jsTrim q.analystName) with
  | none => rfl
  | some c =>
    by_cases h : q.analystCompany ≠ normalizeCompanyName c
    · simp [h, frameOf]
    · simp [h, frameOf]

theorem frameOf_groupUpdate (g : NameGroup) (e : AnalystQuestion) :
    frameOf (groupUpdate g e) = frameOf e := by
  rw [groupUpdate_eq]
  by_cases h : g.knownCompany = []
  · simp [h, frameOf]
  · simp [h, frameOf]

/-- Phase 1 as a map over a permutation of the input. -/
theorem transcriptPhase_eq (m : OpMap) (qs : List AnalystQuestion) :
    transcriptPhase m qs =
      ((groupByKey (fun q => q.transcriptId) qs).flatMap Prod.snd).map
        (applyOperatorToQuestion m) := by
  simp [transcriptPhase, List.map_flatMap]

/-- Pointwise-permuting the pieces of a `flatMap` permutes the result. -/
theorem flatMap_perm_congr {α β : Type} {l : List α} {f g : α → List β}
    (h : ∀ a ∈ l, (f a).Perm (g a)) : (l.flatMap f).Perm (l.flatMap g) := by
  induction l with
  | nil => simp
  | cons a t ih =>
    simp only [List.flatMap_cons]
    exact (h a (List.mem_cons_self a t)).append (ih fun b hb => h b (List.mem_cons_of_mem a hb))

/-- C7 helper: one symbol group's consolidation permutes the group's
frames. -/
theorem symbolGroup_frames_perm (l : List AnalystQuestion) :
    (((buildNameGroups l).flatMap consolidateGroup).map frameOf).Perm (l.map frameOf) := by
  have h1 : ((buildNameGroups l).flatMap consolidateGroup).map frameOf
      = (buildNameGroups l).flatMap (fun g => (consolidateGroup g).map frameOf) := by
    simp [List.map_flatMap]
  have h2 : ∀ g ∈ buildNameGroups l,
      ((consolidateGroup g).map frameOf) = g.entries.map frameOf := by
    intro g _
    simp only [consolidateGroup, List.map_map]
    exact List.map_congr_left fun e _ => frameOf_groupUpdate g e
  rw [h1]
  have h3 : ((buildNameGroups l).flatMap (fun g => (consolidateGroup g).map frameOf)).Perm
      ((buildNameGroups l).flatMap (fun g => g.entries.map frameOf)) := by
    apply flatMap_perm_congr
    intro g hg
    rw [h2 g hg]
  have h4 : ((buildNameGroups l).flatMap (fun g => g.entries.map frameOf))
      = ((buildNameGroups l).flatMap NameGroup.entries).map frameOf := by
    simp [List.map_flatMap]
  have h5 := (buildNameGroups_flat_perm l).map frameOf
  rw [h4] at h3
  exact h3.trans h5

/-- C7: Consolidation mutates only the `analystName` and
`analystCompany` fields: the multiset of frames — `question` text,
`analystTitle`, `transcriptId`, `symbol`, `quarter`, `year`,
`transcriptTitle` — of the records is unchanged by
`applyCompanyWideAnalystConsolidation`; every record keeps those fields
through both phases. -/
theorem consolidation_preserves_frames (qs : List AnalystQuestion) (m : OpMap) :
    ((applyCompanyWideAnalystConsolidation qs m).map frameOf).Perm (qs.map frameOf) := by
  have hp1 : ((transcriptPhase m qs).map frameOf).Perm (qs.map frameOf) := by
    rw [transcriptPhase_eq]
    have h1 : (((groupByKey (fun q => q.transcriptId) qs).flatMap Prod.snd).map
        (applyOperatorToQuestion m)).map frameOf
        = ((groupByKey (fun q => q.transcriptId) qs).flatMap Prod.snd).map frameOf := by
      rw [List.map_map]
      exact List.map_congr_left fun q _ => frameOf_applyOperator m q
    rw [h1]
    exact (groupByKey_flat_perm _ qs).map frameOf
  have hp2 : ∀ L : List AnalystQuestion,
      ((symbolPhase L).map frameOf).Perm (L.map frameOf) := by
    intro L
    have h1 : (symbolPhase L).map frameOf
        = (groupByKey (fun q => q.symbol) L).flatMap
            (fun sg => ((buildNameGroups sg.2).flatMap consolidateGroup).map frameOf) := by
      simp [symbolPhase, List.map_flatMap]
    rw [h1]
    have h2 : ((groupByKey (fun q => q.symbol) L).flatMap
        (fun sg => ((buildNameGroups sg.2).flatMap consolidateGroup).map frameOf)).Perm
        ((groupByKey (fun q => q.symbol) L).flatMap (fun sg => sg.2.map frameOf)) :=
      flatMap_perm_congr fun sg _ => symbolGroup_frames_perm sg.2
    have h3 : (groupByKey (fun q => q.symbol) L).flatMap (fun sg => sg.2.map frameOf)
        = ((groupByKey (fun q => q.symbol) L).flatMap Prod.snd).map frameOf := by
      simp [List.map_flatMap]
    rw [h3] at h2
    exact h2.trans ((groupByKey_flat_perm _ L).map frameOf)
  exact (hp2 (transcriptPhase m qs)).trans hp1

/- Field access on standard turn objects. -/

theorem getField_segObj3_speaker (sp ti co : Str) :
    getField (segObj3 sp ti co) (str "speaker") = .ok (some (.jsStr sp)) := rfl

theorem getField_segObj3_title (sp ti co : Str) :
    getField (segObj3 sp ti co) (str "title") = .ok (some (.jsStr ti)) := rfl

theorem getField_segObj3_content (sp ti co : Str) :
    getField (segObj3 sp ti co) (str "content") = .ok (some (.jsStr co)) := rfl

/-- Every segment of the text-format fallback is a standard turn
object. -/
theorem textSegs_shape (raw : Str) :
    ∀ v ∈ textSegs raw, ∃ sp ti co, v = segObj3 sp ti co := by
  intro v hv
  simp only [textSegs, List.mem_filterMap] at hv
  obtain ⟨line, _, hline⟩ := hv
  rcases hm : searchFrom speakerLinePat line false 0 with _ | m
  · simp only [hm] at hline
    cases hline
  · simp only [hm] at hline
    rcases h1 : capStr line m 1 with _ | sp
    all_goals rcases h2 : capStr line m 2 with _ | ti
    all_goals rcases h3 : capStr line m 3 with _ | co
    all_goals simp only [h1, h2, h3] at hline
    all_goals try cases hline
    exact ⟨sp, ti, co, rfl⟩

/-- Processing a standard (string-field) turn object never throws. -/
theorem processQuestionSegment_ok (t : Transcript) (m : OpMap) (acc : List AnalystQuestion)
    (sp ti co : Str) : ∃ l, processQuestionSegment t m acc (segObj3 sp ti co) = .ok l := by
  simp only [processQuestionSegment, getField_segObj3_speaker, getField_segObj3_title,
    getField_segObj3_content, bind, Except.bind, pure, Except.pure]
  cases hA : ((containsSub (jsToLower ti) (str "analyst") ||
      containsSub (jsToLower ti) (str "research") ||
      containsSub (jsToLower ti) (str "equity")) &&
    !containsSub (jsToLower ti) (str "operator") && !containsSub (jsToLower ti) (str "ceo") &&
    !containsSub (jsToLower ti) (str "cfo") &&
    !containsSub (jsToLower ti) (str "investor relations"))
  · simp [hA]
  · simp only [hA, if_true]
    cases hQ : (containsSub co (str "?") || testRx questionWordsPat co true)
    · simp [hQ]
    · simp [hQ]

/-- A fold of non-throwing steps never throws. -/
theorem foldlM_ok {α β : Type} (f : β → α → Except Unit β) (l : List α)
    (h : ∀ x ∈ l, ∀ acc, ∃ r, f acc x = .ok r) :
    ∀ b, ∃ r, l.foldlM f b = .ok r := by
  induction l with
  | nil => intro b; exact ⟨b, rfl⟩
  | cons x rest ih =>
    intro b
    obtain ⟨r1, hr1⟩ := h x (List.mem_cons_self x rest) b
    obtain ⟨r2, hr2⟩ := ih (fun y hy acc => h y (List.mem_cons_of_mem x hy) acc) r1
    refine ⟨r2, ?_⟩
    rw [List.foldlM_cons, hr1]
    simpa using hr2

/- Claim C4: extraction error behavior. -/

/-- A transcript whose content is the valid JSON text `[{}]` — an array
holding one object with no fields. -/
def badContentT : Transcript where
  id := 4
  symbol := str "MSFT"
  quarter := str "2024Q1"
  year := 2024
  title := str "T"
  content := { raw := str "[{}]", parsed := .ok (.jsArr [.jsObj []]) }

/-- C4 counterexample: the claim says extraction never raises for any
content, including JSON that is not an array of speaker objects.  On
content `[{}]` — well-formed JSON whose single segment has no `title`
field — `speakerTitle.toLowerCase()` throws a `TypeError` that no
`catch` intercepts, and the multi-transcript batch aborts with it. -/
theorem extraction_throws_on_malformed_segment :
    extractAnalystQuestionsFromSingleTranscript badContentT [] = .error () ∧
    extractAnalystQuestionsFromMultipleTranscripts [badContentT] = .error () :=
  ⟨rfl, rfl⟩

/-- C4 (amended): when `JSON.parse` of the content fails, the text
fallback applies and question extraction never throws: every paragraph
either matches the `Name (Title): text` pattern, producing a
string-field segment that is processed without error, or is silently
dropped. -/
theorem extraction_text_fallback_total (t : Transcript) (m : OpMap)
    (h : t.content.parsed = .error ()) :
    ∃ l, extractAnalystQuestionsFromSingleTranscript t m = .ok l := by
  have hseg : parseSegments t.content = .jsArr (textSegs t.content.raw) := by
    simp [parseSegments, h]
  simp only [extractAnalystQuestionsFromSingleTranscript, hseg, forOfSegs, bind, Except.bind]
  apply foldlM_ok
  intro v hv acc
  obtain ⟨sp, ti, co, rfl⟩ := textSegs_shape t.content.raw v hv
  exact processQuestionSegment_ok t m acc sp ti co

/-- A plain-text transcript (its content is not JSON). -/
def plainTextT : Transcript where
  id := 7
  symbol := str "MSFT"
  quarter := str "2024Q1"
  year := 2024
  title := str "T"
  content := { raw := str "Jane Doe (Analyst): What happened to margins?", parsed := .error () }

theorem extraction_text_fallback_total_witness :
    plainTextT.content.parsed = .error () ∧
    ∃ l, extractAnalystQuestionsFromSingleTranscript plainTextT [] = .ok l :=
  ⟨rfl, extraction_text_fallback_total plainTextT [] rfl⟩

/- Claim C5: which turns the operator scan reads. -/

/-- The scanned content string of a segment (its `content` field,
defaulted and coerced as the scan does). -/
def segContentStr (seg : JsValue) : Str :=
  match getField seg (str "content") with
  | .ok o => jsToString (jsOrEmptyStr o)
  | .error _ => []

theorem content_ok_of_check {seg : JsValue} {b : Bool}
    (h : opSpeakerCheck seg = .ok b) : ∃ o, getField seg (str "content") = .ok o := by
  cases seg with
  | jsNull => simp [opSpeakerCheck, getField] at h
  | jsBool v => exact ⟨none, rfl⟩
  | jsNum v => exact ⟨none, rfl⟩
  | jsStr v => exact ⟨none, rfl⟩
  | jsArr v => exact ⟨none, rfl⟩
  | jsObj fs => exact ⟨_, rfl⟩

/-- Whether a segment passes the operator speaker check. -/
def isOpSeg (seg : JsValue) : Bool :=
  match opSpeakerCheck seg with
  | .ok true => true
  | _ => false

/-- C5 (amended): the operator-introduction scan reads exactly the
segments whose `speaker` field contains `'operator'`
(case-insensitively); every other segment — whatever its `title`
says — leaves the attribution map untouched.  (Hypothesis: no segment
makes the speaker check itself throw.) -/
theorem operator_scan_speaker_only (segs : List JsValue)
    (hdef : ∀ seg ∈ segs, (opSpeakerCheck seg).isOk = true) :
    ∀ m0 : OpMap, segs.foldlM opSegStep m0 =
      .ok (segs.foldl (fun acc seg =>
        if isOpSeg seg then scanOperatorSegment acc (segContentStr seg)
        else acc) m0) := by
  induction segs with
  | nil => intro m0; rfl
  | cons seg rest ih =>
    intro m0
    have h1 := hdef seg (List.mem_cons_self seg rest)
    cases hb : opSpeakerCheck seg with
    | error e =>
      rw [hb] at h1
      simp [Except.isOk, Except.toBool] at h1
    | ok b =>
      rw [List.foldlM_cons]
      cases b with
      | false =>
        have hstep : opSegStep m0 seg = .ok m0 := by
          simp [opSegStep, hb, bind, Except.bind]
          rfl
        rw [hstep]
        have hcond : isOpSeg seg = false := by
          simp [isOpSeg, hb]
        simp only [List.foldl_cons, hcond, Bool.false_eq_true, if_false]
        exact ih (fun s hs => hdef s (List.mem_cons_of_mem seg hs)) m0
      | true =>
        obtain ⟨o, ho⟩ := content_ok_of_check hb
        have hstep : opSegStep m0 seg
            = .ok (scanOperatorSegment m0 (jsToString (jsOrEmptyStr o))) := by
          simp [opSegStep, hb, ho, bind, Except.bind]
          rfl
        rw [hstep]
        have hcs : segContentStr seg = jsToString (jsOrEmptyStr o) := by
          simp [segContentStr, ho]
        have hcond : isOpSeg seg = true := by
          simp [isOpSeg, hb]
        simp only [List.foldl_cons, hcond, if_true, hcs]
        exact ih (fun s hs => hdef s (List.mem_cons_of_mem seg hs)) _

theorem operator_scan_speaker_only_witness :
    (∀ seg ∈ [segObj3 (str "Operator") (str "Operator") (str "Hello.")],
      (opSpeakerCheck seg).isOk = true) ∧
    ∀ m0 : OpMap, [segObj3 (str "Operator") (str "Operator") (str "Hello.")].foldlM opSegStep m0 =
      .ok ([segObj3 (str "Operator") (str "Operator") (str "Hello.")].foldl (fun acc seg =>
        if isOpSeg seg then scanOperatorSegment acc (segContentStr seg)
        else acc) m0) :=
  ⟨by decide, operator_scan_speaker_only _ (by decide)⟩

/-- A transcript whose single segment has an operator SPEAKER but a
non-operator title. -/
def opCexSpeakerT : Transcript where
  id := 5
  symbol := str "MSFT"
  quarter := str "2024Q1"
  year := 2024
  title := str "T"
  content :=
    { raw := str "x",
      parsed := .ok (.jsArr [segObj3 (str "Operator") (str "Host") (str "Jane Doe with Goldman.")]) }

/-- A transcript whose single segment has an operator TITLE but a
non-operator speaker — same content as `opCexSpeakerT`. -/
def opCexTitleT : Transcript where
  id := 6
  symbol := str "MSFT"
  quarter := str "2024Q1"
  year := 2024
  title := str "T"
  content :=
    { raw := str "x",
      parsed := .ok (.jsArr [segObj3 (str "Host A") (str "Operator") (str "Jane Doe with Goldman.")]) }

/-- C5 counterexample: the claim says the scan keys on the `title`
field.  On identical content carrying an extractable introduction, the
turn whose TITLE is `'Operator'` (speaker `'Host A'`) contributes
nothing, while the turn whose SPEAKER is `'Operator'` (title `'Host'`,
which does not contain `'operator'`) contributes the entry — the scan
keys on the `speaker` field. -/
theorem operator_scan_title_cex :
    containsSub (jsToLower (str "Host")) (str "operator") = false ∧
    containsSub (jsToLower (str "Operator")) (str "operator") = true ∧
    extractOperatorAnalystInfo opCexSpeakerT = .ok [(str "Jane Doe", str "Goldman")] ∧
    extractOperatorAnalystInfo opCexTitleT = .ok [] :=
  ⟨by decide, by decide, by rfl, by rfl⟩

/- Claim C9: the investor-relations exclusion. -/

/-- A pushed prepared statement never carries an investor-relations
title (the exclusion guard precedes the push). -/
theorem prepStep_ir {t : Transcript} {sp : JsValue} {r : PreparedStatement}
    (h : prepStep t sp = .ok (some r)) :
    containsSub (jsToLower r.speakerTitle) (str "investor relations") = false := by
  unfold prepStep at h
  cases h1 : getField sp (str "title") with
  | error e =>
    rw [h1] at h
    simp [bind, Except.bind] at h
  | ok titleF =>
    rw [h1] at h
    simp only [bind, Except.bind] at h
    cases h2 : asStr (jsOrEmptyStr titleF) with
    | error e =>
      rw [h2] at h
      simp at h
    | ok titleS =>
      rw [h2] at h
      simp only [] at h
      cases h3 : getField sp (str "content") with
      | error e =>
        rw [h3] at h
        simp at h
      | ok contentF =>
        rw [h3] at h
        simp only [] at h
        by_cases hg : (executiveTitles.any (fun e => containsSub (jsToLower titleS) (jsToLower e)) &&
            !containsSub (jsToLower titleS) (str "analyst") &&
            !containsSub (jsToLower titleS) (str "operator") &&
            !(containsSub (jsToLower titleS) (str "investor relations") ||
              containsSub (jsToLower titleS) (str "head of investor relations") ||
              containsSub (jsToLower titleS) (str "director of investor relations") ||
              containsSub (jsToLower titleS) (str "vp investor relations") ||
              containsSub (jsToLower titleS) (str "vice president investor relations"))) = true
    
        · have hir : containsSub (jsToLower titleS) (str "investor relations") = false := by
            have := hg
            simp only [Bool.and_eq_true, Bool.not_eq_true', Bool.or_eq_false_iff] at this
            exact this.2.1.1.1.1
          rw [hg] at h
          simp only [if_true] at h
          -- peel the remaining content checks to identify the record
          cases contentF with
          | none => simp [pure, Except.pure] at h
          | some v =>
            by_cases htr : truthy v = true
            · simp only [htr, if_true] at h
              cases h4 : asStr v with
              | error e =>
                rw [h4] at h
                simp at h
              | ok cs =>
                rw [h4] at h
                simp only [] at h
                by_cases hlen : 100 < (jsTrim cs).length
                · simp only [if_pos hlen] at h
                  cases h5 : getField sp (str "speaker") with
                  | error e =>
                    rw [h5] at h
                    simp at h
                  | ok spkF =>
                    rw [h5] at h
                    simp only [pure, Except.pure, Except.ok.injEq, Option.some.injEq] at h
                    have hst : r.speakerTitle = titleS := by
                      rw [← h]
                    rw [hst]
                    exact hir
                · simp only [if_neg hlen] at h
                  simp [pure, Except.pure] at h
            · simp only [Bool.not_eq_true] at htr
              simp only [htr, Bool.false_eq_true, if_false] at h
              simp [pure, Except.pure] at h
        · rw [Bool.not_eq_true] at hg
          rw [hg] at h
          simp only [Bool.false_eq_true, if_false] at h
          simp [pure, Except.pure] at h

/-- The prepared-statement loop only emits records passing
`prepStep`. -/
theorem collectPrepared_ir (t : Transcript) :
    ∀ l : List JsValue, ∀ r ∈ collectPrepared t l,
      containsSub (jsToLower r.speakerTitle) (str "investor relations") = false := by
  intro l
  induction l with
  | nil => intro r hr; cases hr
  | cons sp rest ih =>
    intro r hr
    unfold collectPrepared at hr
    cases hs : prepStep t sp with
    | error e =>
      rw [hs] at hr
      cases hr
    | ok o =>
      rw [hs] at hr
      cases o with
      | none => exact ih r hr
      | some r0 =>
        rcases List.mem_cons.1 hr with h1 | h2
        · rw [h1]
          exact prepStep_ir hs
        · exact ih r h2

/-- Records of the post-parse body pass the exclusion. -/
theorem prepFromSpeakers_ir (t : Transcript) (speakers : List JsValue) :
    ∀ r ∈ prepFromSpeakers t speakers,
      containsSub (jsToLower r.speakerTitle) (str "investor relations") = false := by
  intro r hr
  unfold prepFromSpeakers at hr
  cases hq : findQaStartAux t speakers 0 with
  | error e =>
    rw [hq] at hr
    cases hr
  | ok idxOpt =>
    rw [hq] at hr
    exact collectPrepared_ir t _ r hr

/-- `extractPreparedStatements` is empty or a post-parse body run. -/
theorem extractPreparedStatements_cases (t : Transcript) :
    extractPreparedStatements t = [] ∨
    ∃ l, extractPreparedStatements t = prepFromSpeakers t l := by
  unfold extractPreparedStatements
  by_cases hb : (startsWithStr (jsTrim t.content.raw) (str "[") ||
      startsWithStr (jsTrim t.content.raw) (str "\x7b")) = true
  · rw [if_pos hb]
    cases hp : t.content.parsed with
    | error e => exact Or.inl rfl
    | ok v =>
      cases v with
      | jsArr speakers => exact Or.inr ⟨speakers, rfl⟩
      | jsNull => exact Or.inl rfl
      | jsBool b => exact Or.inl rfl
      | jsNum n => exact Or.inl rfl
      | jsStr s => exact Or.inl rfl
      | jsObj fs => exact Or.inl rfl
  · rw [if_neg hb]
    exact Or.inr ⟨_, rfl⟩

/-- C9: a turn whose title contains `"investor relations"`
(case-insensitively) never produces a `PreparedStatementRecord`: even
when a fragment like `"Director"` matches the executive roster, the
investor-relations exclusion takes precedence, so no emitted record
carries an investor-relations title. -/
theorem investor_relations_never_prepared (t : Transcript) :
    ∀ r ∈ extractPreparedStatements t,
      containsSub (jsToLower r.speakerTitle) (str "investor relations") = false := by
  intro r hr
  rcases extractPreparedStatements_cases t with h | ⟨l, h⟩
  · rw [h] at hr
    cases hr
  · rw [h] at hr
    exact prepFromSpeakers_ir t l r hr

/-- A plain-text transcript with an investor-relations turn and an
executive turn (the statement is over 100 characters). -/
def prepWitnessT : Transcript where
  id := 9
  symbol := str "MSFT"
  quarter := str "2024Q1"
  year := 2024
  title := str "T"
  content :=
    { raw := str ("Jane Roe (Director of Investor Relations): Welcome all.\n\nJohn Smith (Chief Executive Officer): We are pleased to report strong results this quarter with revenue growth across all segments and improving margins."),
      parsed := .error () }

/-- The record the code extracts from `prepWitnessT`. -/
def prepWitnessRec : PreparedStatement where
  speakerName := .jsStr (str "John Smith")
  speakerTitle := str "Chief Executive Officer"
  statement := str "We are pleased to report strong results this quarter with revenue growth across all segments and improving margins."
  transcriptId := 9
  symbol := str "MSFT"
  quarter := str "2024Q1"
  year := 2024
  transcriptTitle := str "T"

set_option maxRecDepth 100000 in
theorem investor_relations_never_prepared_witness :
    prepWitnessRec ∈ extractPreparedStatements prepWitnessT ∧
    containsSub (jsToLower prepWitnessRec.speakerTitle) (str "investor relations") = false := by
  have hmem : prepWitnessRec ∈ extractPreparedStatements prepWitnessT := by
    have h : extractPreparedStatements prepWitnessT = [prepWitnessRec] := by rfl
    rw [h]
    exact List.mem_singleton_self prepWitnessRec
  exact ⟨hmem, investor_relations_never_prepared prepWitnessT prepWitnessRec hmem⟩

/- Claim C10: single-token display names. -/

/-- C10 (amended): a display name with a single whitespace-delimited
token uses that token as both first and last name; the normalized name
is `capitalize(nickname-expanded lowercased token)` followed by
`capitalize(lowercased token)`, which for tokens outside the nickname
table is the capitalized token duplicated. -/
theorem single_token_name_normalization (s w : Str) (h : wsTokens (jsTrim s) = [w]) :
    (normalizeAnalystName s).normalizedName =
      capitalizeStr (((nameVariations.find? (fun p => p.1 = jsToLower w)).map Prod.snd).getD
        (jsToLower w)) ++ ' ' :: capitalizeStr (jsToLower w) ∧
    (nameVariations.find? (fun p => p.1 = jsToLower w) = none →
      (normalizeAnalystName s).normalizedName
        = capitalizeStr (jsToLower w) ++ ' ' :: capitalizeStr (jsToLower w)) := by
  have h1 : (wsTokens (jsTrim s)).headD [] = w := by rw [h]; rfl
  have h2 : (wsTokens (jsTrim s)).getLast?.getD [] = w := by rw [h]; rfl
  constructor
  · simp only [normalizeAnalystName, h1, h2]
  · intro hf
    simp only [normalizeAnalystName, h1, h2, hf]
    simp

theorem single_token_name_normalization_witness :
    wsTokens (jsTrim (str "Cher")) = [str "Cher"] ∧
    nameVariations.find? (fun p => p.1 = jsToLower (str "Cher")) = none ∧
    (normalizeAnalystName (str "Cher")).normalizedName
      = capitalizeStr (jsToLower (str "Cher")) ++ ' ' :: capitalizeStr (jsToLower (str "Cher")) :=
  ⟨by decide, by decide,
    (single_token_name_normalization (str "Cher") (str "Cher") (by decide)).2 (by decide)⟩

/-- C10 counterexample: the claim says a single-token name normalizes to
the token duplicated.  A nickname-table token does not: `"Mike"`
normalizes to `"Michael Mike"`, with the first copy nickname-expanded,
not to `"Mike Mike"`. -/
theorem single_token_nickname_cex :
    (normalizeAnalystName (str "Mike")).normalizedName = str "Michael Mike" ∧
    (normalizeAnalystName (str "Mike")).normalizedName ≠ str "Mike Mike" := by
  constructor
  · decide
  · decide

/- Claim C8: the prepared-statement Q-and-A boundary. -/

/-- Modelled from the spec (claim side of C8 only): the RoleClassifier
analyst test of spec section 4.2 — analyst, research or equity in the
title, minus the exclusions. -/
def specIsAnalystTitle (title : Str) : Bool :=
  let lt := jsToLower title
  (containsSub lt (str "analyst") || containsSub lt (str "research") ||
    containsSub lt (str "equity")) &&
  !containsSub lt (str "operator") && !containsSub lt (str "ceo") &&
  !containsSub lt (str "cfo") && !containsSub lt (str "investor relations")

/-- Modelled from the spec (claim side of C8 only): the claimed
boundary trigger — a turn classified analyst, or an operator turn whose
content contains question-session language, scanning from index 0. -/
def specQaTrigger (title content : Str) : Bool :=
  specIsAnalystTitle title ||
  (containsSub (jsToLower title) (str "operator") &&
    (containsSub (jsToLower content) (str "question") ||
     containsSub (jsToLower content) (str "next question") ||
     containsSub (jsToLower content) (str "first question") ||
     containsSub (jsToLower content) (str "our next caller")))

/-- The C8 counterexample transcript: an operator turn with
question-session language at index 0, a spec-classified analyst
(equity-research title) at index 1, and an executive statement at
index 2. -/
def qaCexT : Transcript where
  id := 10
  symbol := str "MSFT"
  quarter := str "2024Q1"
  year := 2024
  title := str "T"
  content :=
    { raw := str ("Operator (Operator): We will now begin the question and answer session.\n\nPat Kim (MegaBank Equity Research): Thanks for hosting this call today everyone.\n\nJohn Smith (Chief Executive Officer): We are pleased to report strong results this quarter with revenue growth across all segments and improving margins."),
      parsed := .error () }

/-- The record the code extracts from `qaCexT` (from the turn at
index 2). -/
def qaCexRec : PreparedStatement where
  speakerName := .jsStr (str "John Smith")
  speakerTitle := str "Chief Executive Officer"
  statement := str "We are pleased to report strong results this quarter with revenue growth across all segments and improving margins."
  transcriptId := 10
  symbol := str "MSFT"
  quarter := str "2024Q1"
  year := 2024
  transcriptTitle := str "T"

set_option maxRecDepth 1000000 in
/-- C8 counterexample: under the claim, the boundary of `qaCexT` is
index 0 (its turn 0 is an operator turn containing `"question"`; even
ignoring the index-0 skip, its turn 1 is classified analyst by the
RoleClassifier test, so the boundary is at most 1) and no
prepared-statement candidates exist.  The code, however, skips operator
turns at index 0, never matches the equity-research title (it tests only
the `'analyst'` substring), finds no boundary, and extracts the
executive record from turn 2. -/
theorem qa_boundary_claim_cex :
    specQaTrigger (str "Operator")
      (str "We will now begin the question and answer session.") = true ∧
    specIsAnalystTitle (str "MegaBank Equity Research") = true ∧
    containsSub (jsToLower (str "MegaBank Equity Research")) (str "analyst") = false ∧
    extractPreparedStatements qaCexT = [qaCexRec] :=
  ⟨by decide, by decide, by decide, by rfl⟩

/-- The boundary trigger the code implements: title containing
`'analyst'`, or — at index one or later — title containing `'operator'`
with question-session content. -/
def codeQaTrigger (i : Nat) (title content : Str) : Bool :=
  containsSub (jsToLower title) (str "analyst") ||
  (containsSub (jsToLower title) (str "operator") && decide (0 < i) &&
    (containsSub (jsToLower content) (str "question") ||
     containsSub (jsToLower content) (str "next question") ||
     containsSub (jsToLower content) (str "first question") ||
     containsSub (jsToLower content) (str "our next caller")))

/-- A pure view of the boundary scan over (speaker, title, content)
triples. -/
def specScan : List (Str × Str × Str) → Nat → Option Nat
  | [], _ => none
  | x :: rest, i => if codeQaTrigger i x.2.1 x.2.2 then some i else specScan rest (i + 1)

/-- The standard turn objects of a triple list. -/
def segsToSpeakers (l : List (Str × Str × Str)) : List JsValue :=
  l.map (fun x => segObj3 x.1 x.2.1 x.2.2)

theorem jsOrEmptyStr_jsStr (s : Str) : jsOrEmptyStr (some (.jsStr s)) = .jsStr s := by
  by_cases h : s = []
  · simp [jsOrEmptyStr, truthy, h]
  · simp [jsOrEmptyStr, truthy, h]

/-- On string-field turn objects the imperative scan computes
`specScan`. -/
theorem findQaStartAux_eq_specScan (t : Transcript) :
    ∀ (l : List (Str × Str × Str)) (i : Nat),
      findQaStartAux t (segsToSpeakers l) i = .ok (specScan l i) := by
  intro l
  induction l with
  | nil => intro i; rfl
  | cons x rest ih =>
    intro i
    simp only [segsToSpeakers, List.map_cons, findQaStartAux, getField_segObj3_title,
      getField_segObj3_content, jsOrEmptyStr_jsStr, bind, Except.bind, asStr]
    simp only [specScan, codeQaTrigger]
    by_cases hA : containsSub (jsToLower x.2.1) (str "analyst") = true
    · simp [hA]
      rfl
    · simp only [Bool.not_eq_true] at hA
      simp only [hA, Bool.false_or, if_false]
      by_cases hB : (containsSub (jsToLower x.2.1) (str "operator") && decide (0 < i) &&
          (containsSub (jsToLower x.2.2) (str "question") ||
           containsSub (jsToLower x.2.2) (str "next question") ||
           containsSub (jsToLower x.2.2) (str "first question") ||
           containsSub (jsToLower x.2.2) (str "our next caller"))) = true
      · simp [hB]
        rfl
      · simp only [Bool.not_eq_true] at hB
        simp only [hB, if_false, Bool.false_eq_true]
        exact ih (i + 1)

/-- `specScan` finds exactly the first triggering index. -/
theorem specScan_char :
    ∀ (l : List (Str × Str × Str)) (i : Nat),
      (specScan l i = none →
        ∀ j x, l.get? j = some x → codeQaTrigger (i + j) x.2.1 x.2.2 = false) ∧
      (∀ b, specScan l i = some b → i ≤ b ∧
        (∃ x, l.get? (b - i) = some x ∧ codeQaTrigger b x.2.1 x.2.2 = true) ∧
        (∀ j, j < b - i → ∀ x, l.get? j = some x → codeQaTrigger (i + j) x.2.1 x.2.2 = false)) := by
  intro l
  induction l with
  | nil =>
    intro i
    constructor
    · intro _ j x hx
      simp at hx
    · intro b hb
      simp [specScan] at hb
  | cons x0 rest ih =>
    intro i
    by_cases ht : codeQaTrigger i x0.2.1 x0.2.2 = true
    · constructor
      · intro hn
        rw [specScan, if_pos ht] at hn
        cases hn
      · intro b hb
        rw [specScan, if_pos ht] at hb
        cases hb
        refine ⟨Nat.le_refl i, ⟨x0, by simp, ht⟩, ?_⟩
        intro j hj
        omega
    · have ht' : codeQaTrigger i x0.2.1 x0.2.2 = false := by
        simpa using ht
      constructor
      · intro hn
        rw [specScan, if_neg (by simp [ht'])] at hn
        intro j x hx
        cases j with
        | zero =>
          simp only [List.get?_cons_zero, Option.some.injEq] at hx
          rw [← hx]
          simpa using ht'
        | succ j' =>
          simp only [List.get?_cons_succ] at hx
          have := ((ih (i + 1)).1 hn) j' x hx
          have harith : i + 1 + j' = i + (j' + 1) := by omega
          rw [harith] at this
          exact this
      · intro b hb
        rw [specScan, if_neg (by simp [ht'])] at hb
        obtain ⟨h1, ⟨y, hy1, hy2⟩, h3⟩ := (ih (i + 1)).2 b hb
        refine ⟨by omega, ⟨y, ?_, hy2⟩, ?_⟩
        · have harith : b - i = (b - (i + 1)) + 1 := by omega
          rw [harith]
          simpa using hy1
        · intro j hj xj hxj
          cases j with
          | zero =>
            simp only [List.get?_cons_zero, Option.some.injEq] at hxj
            rw [← hxj]
            simpa using ht'
          | succ j' =>
            simp only [List.get?_cons_succ] at hxj
            have hj' : j' < b - (i + 1) := by omega
            have := h3 j' hj' xj hxj
            have harith : i + 1 + j' = i + (j' + 1) := by omega
            rw [harith] at this
            exact this

/-- `prepStep` never throws on a string-field turn object. -/
theorem prepStep_segObj3_ok (t : Transcript) (sp ti co : Str) :
    ∃ o, prepStep t (segObj3 sp ti co) = .ok o := by
  simp only [prepStep, getField_segObj3_title, getField_segObj3_content,
    getField_segObj3_speaker, jsOrEmptyStr_jsStr, bind, Except.bind, asStr]
  by_cases hg : (executiveTitles.any (fun e => containsSub (jsToLower ti) (jsToLower e)) &&
      !containsSub (jsToLower ti) (str "analyst") &&
      !containsSub (jsToLower ti) (str "operator") &&
      !(containsSub (jsToLower ti) (str "investor relations") ||
        containsSub (jsToLower ti) (str "head of investor relations") ||
        containsSub (jsToLower ti) (str "director of investor relations") ||
        containsSub (jsToLower ti) (str "vp investor relations") ||
        containsSub (jsToLower ti) (str "vice president investor relations"))) = true
  · simp only [hg, if_true]
    by_cases htr : truthy (.jsStr co) = true
    · simp only [htr, if_true]
      by_cases hlen : 100 < (jsTrim co).length
      · simp only [hlen, if_true]
        exact ⟨_, rfl⟩
      · simp only [hlen, if_false]
        exact ⟨_, rfl⟩
    · simp only [Bool.not_eq_true] at htr
      simp only [htr, Bool.false_eq_true, if_false]
      exact ⟨_, rfl⟩
  · simp only [Bool.not_eq_true] at hg
    simp only [hg, Bool.false_eq_true, if_false]
    exact ⟨_, rfl⟩

/-- When no step throws, the statement loop is a `filterMap`. -/
theorem collectPrepared_eq_filterMap (t : Transcript) :
    ∀ l : List JsValue, (∀ v ∈ l, ∃ o, prepStep t v = .ok o) →
      collectPrepared t l = l.filterMap (fun v =>
        match prepStep t v with
        | .ok o => o
        | .error _ => none) := by
  intro l
  induction l with
  | nil => intro _; rfl
  | cons v rest ih =>
    intro h
    obtain ⟨o, ho⟩ := h v (List.mem_cons_self v rest)
    have hrest := ih (fun w hw => h w (List.mem_cons_of_mem v hw))
    cases o with
    | none =>
      simp only [collectPrepared, ho, List.filterMap_cons]
      rw [hrest]
    | some r =>
      simp only [collectPrepared, ho, List.filterMap_cons]
      rw [hrest]

/-- C8 (amended): on a transcript whose parsed content is a list of
string-field turns, the Q-and-A boundary is the FIRST turn whose
lowercased title contains `'analyst'`, or — at index one or later —
whose title contains `'operator'` and whose content contains
question-session language (`'question'`, `'next question'`,
`'first question'` or `'our next caller'`); when no turn qualifies the
boundary is the turn count.  No earlier turn triggers, the boundary
turn (when in range) does trigger, and the prepared statements are
exactly the surviving records of the turns strictly before the
boundary. -/
theorem prepared_boundary_characterization (t : Transcript)
    (segs : List (Str × Str × Str)) :
    (∀ j, j < (specScan segs 0).getD segs.length →
      ∀ x, segs.get? j = some x → codeQaTrigger j x.2.1 x.2.2 = false) ∧
    (∀ b, specScan segs 0 = some b →
      ∃ x, segs.get? b = some x ∧ codeQaTrigger b x.2.1 x.2.2 = true) ∧
    prepFromSpeakers t (segsToSpeakers segs) =
      (segs.take ((specScan segs 0).getD segs.length)).filterMap
        (fun x => match prepStep t (segObj3 x.1 x.2.1 x.2.2) with
          | .ok o => o
          | .error _ => none) := by
  have hchar := specScan_char segs 0
  refine ⟨?_, ?_, ?_⟩
  · intro j hj x hx
    cases hs : specScan segs 0 with
    | none =>
      have := (hchar.1 hs) j x hx
      simpa using this
    | some b =>
      rw [hs] at hj
      simp only [Option.getD_some] at hj
      obtain ⟨h1, h2, h3⟩ := hchar.2 b hs
      have := h3 j (by omega) x hx
      simpa using this
  · intro b hb
    obtain ⟨h1, ⟨x, hx1, hx2⟩, h3⟩ := hchar.2 b hb
    exact ⟨x, by simpa using hx1, hx2⟩
  · have hlen : (segsToSpeakers segs).length = segs.length := by
      simp [segsToSpeakers]
    have htake : (segsToSpeakers segs).take ((specScan segs 0).getD segs.length) =
        segsToSpeakers (segs.take ((specScan segs 0).getD segs.length)) := by
      simp [segsToSpeakers, List.map_take]
    have hok : ∀ v ∈ segsToSpeakers (segs.take ((specScan segs 0).getD segs.length)),
        ∃ o, prepStep t v = .ok o := by
      intro v hv
      simp only [segsToSpeakers, List.mem_map] at hv
      obtain ⟨x, _, hx⟩ := hv
      rw [← hx]
      exact prepStep_segObj3_ok t x.1 x.2.1 x.2.2
    rw [prepFromSpeakers, findQaStartAux_eq_specScan, hlen]
    show collectPrepared t
        (List.take ((specScan segs 0).getD segs.length) (segsToSpeakers segs)) = _
    rw [htake, collectPrepared_eq_filterMap t _ hok]
    simp only [segsToSpeakers, List.filterMap_map]
    rfl

/- Consolidation membership and uniformity lemmas. -/

theorem keyOf_eq_canonName (q : AnalystQuestion) : keyOf q = canonName q.analystName := by
  rw [keyOf, ← canonName_jsTrim]
  rfl

theorem applyOperator_miss {m : OpMap} {q : AnalystQuestion}
    (h : mapGet m (jsTrim q.analystName) = none) : applyOperatorToQuestion m q = q := by
  simp [applyOperatorToQuestion, h]

theorem applyOperator_hit {m : OpMap} {q : AnalystQuestion} {c : Str}
    (h : mapGet m (jsTrim q.analystName) = some c) :
    applyOperatorToQuestion m q = { q with analystCompany := normalizeCompanyName c } := by
  simp only [applyOperatorToQuestion, h]
  by_cases hc : q.analystCompany ≠ normalizeCompanyName c
  · simp [hc]
  · rw [if_neg hc]
    push_neg at hc
    cases q
    simp_all

theorem transcriptPhase_perm (m : OpMap) (qs : List AnalystQuestion) :
    (transcriptPhase m qs).Perm (qs.map (applyOperatorToQuestion m)) := by
  rw [transcriptPhase_eq]
  exact (groupByKey_flat_perm _ qs).map _

theorem mem_transcriptPhase {m : OpMap} {qs : List AnalystQuestion} {q : AnalystQuestion}
    (h : q ∈ qs) : applyOperatorToQuestion m q ∈ transcriptPhase m qs :=
  (transcriptPhase_perm m qs).mem_iff.2 (List.mem_map_of_mem _ h)

theorem exists_symbolGroup {L : List AnalystQuestion} {q : AnalystQuestion} (hq : q ∈ L) :
    ∃ p ∈ groupByKey (fun r => r.symbol) L, p.1 = q.symbol ∧
      p.2 = L.filter (fun r => r.symbol = p.1) ∧ q ∈ p.2 := by
  obtain ⟨hnd, hcov, hfil⟩ := groupByKey_char (fun r => r.symbol) L
  obtain ⟨p, hp, hfst⟩ := List.mem_map.1 (hcov q hq)
  refine ⟨p, hp, hfst, hfil p hp, ?_⟩
  rw [hfil p hp]
  simp [List.mem_filter, hq, hfst]

theorem exists_nameGroup {l : List AnalystQuestion} {q : AnalystQuestion} (hq : q ∈ l) :
    ∃ g ∈ buildNameGroups l, g.normalizedName = keyOf q ∧
      g.entries = l.filter (fun r => keyOf r = g.normalizedName) ∧
      g.knownCompany = kcOf g.entries ∧ q ∈ g.entries := by
  obtain ⟨hnd, hcov, hchar⟩ := buildNameGroups_char l
  obtain ⟨g, hg, hfst⟩ := List.mem_map.1 (hcov q hq)
  obtain ⟨he, hkc⟩ := hchar g hg
  refine ⟨g, hg, hfst, he, hkc, ?_⟩
  rw [he]
  simp [List.mem_filter, hq, hfst]

theorem kcOf_eq_of_mem {K : Str} (hK : K ≠ strUnknown) :
    ∀ l : List AnalystQuestion,
      (∀ r ∈ l, r.analystCompany = K ∨ r.analystCompany = strUnknown) →
      (∃ r ∈ l, r.analystCompany = K) → kcOf l = K := by
  intro l
  induction l using List.reverseRecOn with
  | nil =>
    intro _ hex
    simp at hex
  | append_singleton ys x ih =>
    intro hall hex
    rw [kcOf_append]
    rcases hall x (by simp) with hx | hx
    · rw [hx]
      simp [hK]
    · rw [hx]
      simp only [ne_eq, not_true_eq_false, if_false]
      apply ih
      · intro r hr
        exact hall r (List.mem_append_left _ hr)
      · obtain ⟨r, hr, hrK⟩ := hex
        rcases List.mem_append.1 hr with h1 | h2
        · exact ⟨r, h1, hrK⟩
        · have hrx : r = x := by simpa using h2
          rw [hrx, hx] at hrK
          exact absurd hrK.symm hK

theorem kcOf_nil_all_unknown :
    ∀ l : List AnalystQuestion, (∀ r ∈ l, r.analystCompany ≠ []) →
      kcOf l = [] → ∀ r ∈ l, r.analystCompany = strUnknown := by
  intro l
  induction l using List.reverseRecOn with
  | nil =>
    intro _ _ r hr
    simp at hr
  | append_singleton ys x ih =>
    intro hne hkc r hr
    rw [kcOf_append] at hkc
    by_cases hx : x.analystCompany = strUnknown
    · rw [hx] at hkc
      simp only [ne_eq, not_true_eq_false, if_false] at hkc
      rcases List.mem_append.1 hr with h1 | h2
      · exact ih (fun r hr => hne r (List.mem_append_left _ hr)) hkc r h1
      · have hrx : r = x := by simpa using h2
        rw [hrx]
        exact hx
    · rw [if_pos hx] at hkc
      exact absurd hkc (hne x (by simp))

theorem groupUpdate_symbol (g : NameGroup) (e : AnalystQuestion) :
    (groupUpdate g e).symbol = e.symbol := by
  rw [groupUpdate_eq]
  by_cases h : g.knownCompany = [] <;> simp [h]

theorem groupUpdate_name (g : NameGroup) (e : AnalystQuestion) :
    (groupUpdate g e).analystName = g.normalizedName := by
  rw [groupUpdate_eq]
  by_cases h : g.knownCompany = [] <;> simp [h]

theorem groupUpdate_company (g : NameGroup) (e : AnalystQuestion) :
    (groupUpdate g e).analystCompany =
      if g.knownCompany ≠ [] then g.knownCompany else e.analystCompany := by
  rw [groupUpdate_eq]
  by_cases h : g.knownCompany = [] <;> simp [h]

theorem mem_symbolPhase_iff {L : List AnalystQuestion} {r : AnalystQuestion} :
    r ∈ symbolPhase L ↔ ∃ p ∈ groupByKey (fun q => q.symbol) L,
      ∃ g ∈ buildNameGroups p.2, ∃ e ∈ g.entries, r = groupUpdate g e := by
  simp only [symbolPhase, List.mem_flatMap, consolidateGroup, List.mem_map]
  constructor
  · rintro ⟨p, hp, g, hg, e, he, hr⟩
    exact ⟨p, hp, g, hg, e, he, hr.symm⟩
  · rintro ⟨p, hp, g, hg, e, he, hr⟩
    exact ⟨p, hp, g, hg, e, he, hr.symm⟩

/- C1: operator-attributed institutions versus phase-2 overwrites. -/

/-- A record whose raw name is an operator-map key and whose title-derived
company is Goldman Sachs. -/
def c1q1 : AnalystQuestion where
  analystName := str "Keith Weiss"
  analystTitle := str "Analyst"
  analystCompany := str "Goldman Sachs"
  question := str "Q1"
  transcriptId := 1
  symbol := str "MSFT"
  quarter := str "Q1 2024"
  year := 2024
  transcriptTitle := str "T1"

/-- A same-symbol record of the same person (different raw spelling, so
the operator map misses it) with the Goldman Sachs company. -/
def c1q2 : AnalystQuestion where
  analystName := str "keith weiss"
  analystTitle := str "Analyst"
  analystCompany := str "Goldman Sachs"
  question := str "Q2"
  transcriptId := 1
  symbol := str "MSFT"
  quarter := str "Q1 2024"
  year := 2024
  transcriptTitle := str "T1"

/-- The operator map attributing Keith Weiss to Morgan Stanley. -/
def c1m : OpMap := [(str "Keith Weiss", str "Morgan Stanley")]

/-- C1 counterexample: `c1q1`'s raw analyst name is a key of the operator
map (institution Morgan Stanley), yet after consolidation the record
carries `'Goldman Sachs'`, not the normalized operator institution: the
phase-2 `knownCompany` (the LAST non-`'Unknown'` company of the identity
group, here the title-derived Goldman Sachs of the later same-person
record) overwrites the operator attribution. -/
theorem operator_precedence_cex :
    mapGet c1m (jsTrim c1q1.analystName) = some (str "Morgan Stanley") ∧
    c1q2.symbol = c1q1.symbol ∧ keyOf c1q2 = keyOf c1q1 ∧
    (applyCompanyWideAnalystConsolidation [c1q1, c1q2] c1m).map
        (fun r => (r.question, r.analystCompany)) =
      [(str "Q1", str "Goldman Sachs"), (str "Q2", str "Goldman Sachs")] ∧
    str "Goldman Sachs" ≠ normalizeCompanyName (str "Morgan Stanley") := by
  decide

/-- C1 (amended): phase 1 of consolidation overwrites the company of a
record whose trimmed raw analyst name is an operator-map key with the
normalized operator institution, and this value survives phase 2
PROVIDED every phase-1 record of the same symbol and same normalized
name carries the normalized institution or `'Unknown'` — the phase-2
`knownCompany` (last non-`'Unknown'` company of the group) can otherwise
overwrite the operator attribution with a title-derived company. -/
theorem operator_attribution_survives (qs : List AnalystQuestion) (m : OpMap)
    (q0 : AnalystQuestion) (inst : Str)
    (hq0 : q0 ∈ qs)
    (hmap : mapGet m (jsTrim q0.analystName) = some inst)
    (hKu : normalizeCompanyName inst ≠ strUnknown)
    (hKe : normalizeCompanyName inst ≠ [])
    (hgroup : ∀ r ∈ transcriptPhase m qs, r.symbol = q0.symbol → keyOf r = keyOf q0 →
      r.analystCompany = normalizeCompanyName inst ∨ r.analystCompany = strUnknown) :
    ∃ r ∈ applyCompanyWideAnalystConsolidation qs m,
      frameOf r = frameOf q0 ∧ r.analystName = keyOf q0 ∧
      r.analystCompany = normalizeCompanyName inst := by
  have hq1c : (applyOperatorToQuestion m q0).analystCompany = normalizeCompanyName inst := by
    rw [applyOperator_hit hmap]
  have hq1n : (applyOperatorToQuestion m q0).analystName = q0.analystName := by
    rw [applyOperator_hit hmap]
  have hq1s : (applyOperatorToQuestion m q0).symbol = q0.symbol := by
    rw [applyOperator_hit hmap]
  have hq1k : keyOf (applyOperatorToQuestion m q0) = keyOf q0 := by
    rw [keyOf, hq1n, keyOf]
  have hq1mem : applyOperatorToQuestion m q0 ∈ transcriptPhase m qs := mem_transcriptPhase hq0
  obtain ⟨p, hp, hpfst, hpfil, hq1p⟩ := exists_symbolGroup hq1mem
  obtain ⟨g, hg, hgname, hgent, hgkc, hq1g⟩ := exists_nameGroup hq1p
  have hent : ∀ e ∈ g.entries,
      e.analystCompany = normalizeCompanyName inst ∨ e.analystCompany = strUnknown := by
    intro e he
    rw [hgent] at he
    obtain ⟨hep, hekey⟩ := List.mem_filter.1 he
    rw [hpfil] at hep
    obtain ⟨heL, hesym⟩ := List.mem_filter.1 hep
    have hesym' : e.symbol = q0.symbol := by
      have : e.symbol = p.1 := by simpa using hesym
      rw [this, hpfst, hq1s]
    have hekey' : keyOf e = keyOf q0 := by
      have : keyOf e = g.normalizedName := by simpa using hekey
      rw [this, hgname, hq1k]
    exact hgroup e heL hesym' hekey'
  have hkcK : g.knownCompany = normalizeCompanyName inst := by
    rw [hgkc]
    exact kcOf_eq_of_mem hKu g.entries hent ⟨applyOperatorToQuestion m q0, hq1g, hq1c⟩
  refine ⟨groupUpdate g (applyOperatorToQuestion m q0), ?_, ?_, ?_, ?_⟩
  · show _ ∈ symbolPhase (transcriptPhase m qs)
    exact mem_symbolPhase_iff.2 ⟨p, hp, g, hg, applyOperatorToQuestion m q0, hq1g, rfl⟩
  · rw [frameOf_groupUpdate]
    exact frameOf_applyOperator m q0
  · rw [groupUpdate_name, hgname, hq1k]
  · rw [groupUpdate_company, hkcK]
    simp [hKe]

/-- A single record for the C1 witness. -/
def c1w : AnalystQuestion where
  analystName := str "Keith Weiss"
  analystTitle := str "Analyst"
  analystCompany := strUnknown
  question := str "Q"
  transcriptId := 1
  symbol := str "MSFT"
  quarter := str "Q1 2024"
  year := 2024
  transcriptTitle := str "T1"

/-- C1 witness: a concrete run of the amended theorem. -/
theorem operator_attribution_survives_witness :
    ∃ r ∈ applyCompanyWideAnalystConsolidation [c1w] c1m,
      frameOf r = frameOf c1w ∧ r.analystName = keyOf c1w ∧
      r.analystCompany = normalizeCompanyName (str "Morgan Stanley") :=
  operator_attribution_survives [c1w] c1m c1w (str "Morgan Stanley")
    (by decide) (by decide) (by decide) (by decide) (by decide)

/- C2: propagation of a known company over 'Unknown' within a symbol. -/

/-- C2: two records of the same symbol whose raw names normalize to the
same person, the first with company `'Unknown'`, the second with a known
nonempty company, and neither name in the operator map: consolidation
gives both records the known company and the canonical normalized name. -/
theorem unknown_company_propagation (r1 r2 : AnalystQuestion) (m : OpMap)
    (hsym : r2.symbol = r1.symbol)
    (hkey : keyOf r2 = keyOf r1)
    (hc1 : r1.analystCompany = strUnknown)
    (hc2u : r2.analystCompany ≠ strUnknown)
    (hc2e : r2.analystCompany ≠ [])
    (hm1 : mapGet m (jsTrim r1.analystName) = none)
    (hm2 : mapGet m (jsTrim r2.analystName) = none) :
    applyCompanyWideAnalystConsolidation [r1, r2] m =
      [{ r1 with analystName := keyOf r1, analystCompany := r2.analystCompany },
       { r2 with analystName := keyOf r1 }] := by
  have hphase1 : transcriptPhase m [r1, r2] = [r1, r2] := by
    have ha1 : applyOperatorToQuestion m r1 = r1 := applyOperator_miss hm1
    have ha2 : applyOperatorToQuestion m r2 = r2 := applyOperator_miss hm2
    by_cases h : r1.transcriptId = r2.transcriptId
    · simp [transcriptPhase, groupByKey, insGroup, h, ha1, ha2]
    · simp [transcriptPhase, groupByKey, insGroup, h, ha1, ha2]
  rw [show applyCompanyWideAnalystConsolidation [r1, r2] m
      = symbolPhase (transcriptPhase m [r1, r2]) from rfl, hphase1]
  have hsg : groupByKey (fun q => q.symbol) [r1, r2] = [(r1.symbol, [r1, r2])] := by
    simp [groupByKey, insGroup, hsym]
  have hng : buildNameGroups [r1, r2] =
      [{ normalizedName := keyOf r1, knownCompany := r2.analystCompany,
         entries := [r1, r2] }] := by
    simp [buildNameGroups, addToNameGroups, insNameGroup, hkey, hc1, hc2u]
  simp only [symbolPhase, hsg, List.flatMap_cons, List.flatMap_nil, List.append_nil, hng,
    consolidateGroup, List.map_cons, List.map_nil]
  rw [groupUpdate_eq, groupUpdate_eq]
  simp only [ne_eq, hc2e, not_false_iff, if_true]

/-- The C2 witness pair: Mike Ng with an unknown company and Michael Ng
with Goldman Sachs, same symbol. -/
def c2r1 : AnalystQuestion where
  analystName := str "Mike Ng"
  analystTitle := str "Analyst"
  analystCompany := strUnknown
  question := str "QA"
  transcriptId := 1
  symbol := str "AAPL"
  quarter := str "Q1 2024"
  year := 2024
  transcriptTitle := str "T1"

/-- The second C2 witness record. -/
def c2r2 : AnalystQuestion where
  analystName := str "Michael Ng"
  analystTitle := str "Analyst"
  analystCompany := str "Goldman Sachs"
  question := str "QB"
  transcriptId := 2
  symbol := str "AAPL"
  quarter := str "Q2 2024"
  year := 2024
  transcriptTitle := str "T2"

/-- C2 witness: the concrete Mike Ng / Michael Ng pair. -/
theorem unknown_company_propagation_witness :
    applyCompanyWideAnalystConsolidation [c2r1, c2r2] [] =
      [{ c2r1 with analystName := keyOf c2r1, analystCompany := c2r2.analystCompany },
       { c2r2 with analystName := keyOf c2r1 }] :=
  unknown_company_propagation c2r1 c2r2 []
    (by decide) (by decide) (by decide) (by decide) (by decide) (by decide) (by decide)

/- C3: idempotence of consolidation. -/

/-- A single unknown-company record whose raw and normalized names are
BOTH operator-map keys with different institutions. -/
def c3q : AnalystQuestion where
  analystName := str "Mike Ng"
  analystTitle := str "Analyst"
  analystCompany := strUnknown
  question := str "Q"
  transcriptId := 1
  symbol := str "AAPL"
  quarter := str "Q1 2024"
  year := 2024
  transcriptTitle := str "T1"

/-- An operator map binding the raw spelling and the normalized name to
different institutions. -/
def c3m : OpMap := [(str "Mike Ng", str "Alpha Capital"), (str "Michael Ng", str "Beta Capital")]

/-- C3 counterexample: one run maps Mike Ng to Alpha Capital and renames
him Michael Ng; the second run re-applies phase 1 to the RENAMED record,
hits the map's Michael Ng entry and rewrites the company to Beta
Capital — consolidation is not idempotent. -/
theorem consolidation_idempotence_cex :
    (applyCompanyWideAnalystConsolidation [c3q] c3m).map (fun r => r.analystCompany)
      = [str "Alpha Capital"] ∧
    (applyCompanyWideAnalystConsolidation
        (applyCompanyWideAnalystConsolidation [c3q] c3m) c3m).map
      (fun r => r.analystCompany) = [str "Beta Capital"] ∧
    str "Beta Capital" ≠ str "Alpha Capital" := by
  decide

theorem kcOf_all_unknown : ∀ l : List AnalystQuestion,
    (∀ r ∈ l, r.analystCompany = strUnknown) → kcOf l = [] := by
  intro l
  induction l using List.reverseRecOn with
  | nil => intro _; rfl
  | append_singleton ys x ih =>
    intro h
    rw [kcOf_append, h x (by simp)]
    simp only [ne_eq, not_true_eq_false, if_false]
    exact ih fun r hr => h r (List.mem_append_left _ hr)

/-- The per-entry update is the identity when the entry already carries
the group key as its name and the group company (or the group company is
empty). -/
theorem groupUpdate_id {g : NameGroup} {e : AnalystQuestion}
    (hn : e.analystName = g.normalizedName)
    (hc : g.knownCompany = [] ∨ e.analystCompany = g.knownCompany) :
    groupUpdate g e = e := by
  rw [groupUpdate_eq]
  rcases hc with hc | hc
  · rw [if_neg (by simp [hc]), ← hn]
  · by_cases hk : g.knownCompany = []
    · rw [if_neg (by simp [hk]), ← hn]
    · rw [if_pos (by simp [hk]), ← hc, ← hn]

theorem flatMap_congr_left {α β : Type} {l : List α} {f g : α → List β}
    (h : ∀ a ∈ l, f a = g a) : l.flatMap f = l.flatMap g := by
  induction l with
  | nil => rfl
  | cons a t ih =>
    simp only [List.flatMap_cons]
    rw [h a (List.mem_cons_self a t), ih fun b hb => h b (List.mem_cons_of_mem a hb)]

/-- Full inversion of a phase-2 output record. -/
theorem symbolPhase_anatomy {X : List AnalystQuestion} {r : AnalystQuestion}
    (hr : r ∈ symbolPhase X) :
    ∃ p ∈ groupByKey (fun q => q.symbol) X, ∃ g ∈ buildNameGroups p.2, ∃ e ∈ g.entries,
      r = groupUpdate g e ∧ e ∈ X ∧ e.symbol = p.1 ∧ keyOf e = g.normalizedName ∧
      r.symbol = p.1 ∧ r.analystName = g.normalizedName ∧ keyOf r = g.normalizedName ∧
      g.knownCompany = kcOf g.entries := by
  obtain ⟨p, hp, g, hg, e, he, hre⟩ := mem_symbolPhase_iff.1 hr
  obtain ⟨hndS, hcovS, hfilS⟩ := groupByKey_char (fun q => q.symbol) X
  obtain ⟨hent, hkc⟩ := (buildNameGroups_char p.2).2.2 g hg
  have hef : e ∈ p.2.filter (fun q => keyOf q = g.normalizedName) := by
    rw [← hent]
    exact he
  have hep2 : e ∈ p.2 := (List.mem_filter.1 hef).1
  have hek : keyOf e = g.normalizedName := by simpa using (List.mem_filter.1 hef).2
  have hef2 : e ∈ X.filter (fun q => q.symbol = p.1) := by
    rw [← hfilS p hp]
    exact hep2
  have heX : e ∈ X := (List.mem_filter.1 hef2).1
  have hes : e.symbol = p.1 := by simpa using (List.mem_filter.1 hef2).2
  have hrn : r.analystName = g.normalizedName := by rw [hre, groupUpdate_name]
  have hkr : keyOf r = g.normalizedName := by
    rw [keyOf_eq_canonName, hrn, ← hek, keyOf_eq_canonName, canonName_idem]
  exact ⟨p, hp, g, hg, e, he, hre, heX, hes, hek,
    by rw [hre, groupUpdate_symbol, hes], hrn, hkr, hkc⟩

/-- Every phase-2 output record carries its own normalized name. -/
theorem symbolPhase_name_canonical {X : List AnalystQuestion} :
    ∀ r ∈ symbolPhase X, r.analystName = keyOf r := by
  intro r hr
  obtain ⟨p, hp, g, hg, e, he, hre, heX, hes, hek, hrs, hrn, hkr, hkc⟩ := symbolPhase_anatomy hr
  rw [hrn, hkr]

/-- Phase-2 outputs with nonempty companies are company-uniform within a
(symbol, normalized-name) class. -/
theorem symbolPhase_company_uniform {X : List AnalystQuestion}
    (hne : ∀ r ∈ symbolPhase X, r.analystCompany ≠ []) :
    ∀ r ∈ symbolPhase X, ∀ r' ∈ symbolPhase X,
      r.symbol = r'.symbol → keyOf r = keyOf r' → r.analystCompany = r'.analystCompany := by
  intro r hr r' hr' hsym hkey
  obtain ⟨p, hp, g, hg, e, he, hre, heX, hes, hek, hrs, hrn, hkr, hkc⟩ := symbolPhase_anatomy hr
  obtain ⟨p', hp', g', hg', e', he', hre', heX', hes', hek', hrs', hrn', hkr', hkc'⟩ :=
    symbolPhase_anatomy hr'
  obtain ⟨hndS, _, _⟩ := groupByKey_char (fun q => q.symbol) X
  have hpp : p = p' :=
    List.inj_on_of_nodup_map hndS hp hp' (by rw [← hrs, hsym, hrs'])
  subst hpp
  have hgg : g = g' :=
    List.inj_on_of_nodup_map (buildNameGroups_char p.2).1 hg hg' (by rw [← hkr, hkey, hkr'])
  subst hgg
  rw [hre, hre', groupUpdate_company, groupUpdate_company]
  by_cases hkn : g.knownCompany = []
  · simp only [ne_eq, hkn, not_true_eq_false, if_false]
    have hkcnil : kcOf g.entries = [] := by rw [← hkc, hkn]
    have hnoemp : ∀ f ∈ g.entries, f.analystCompany ≠ [] := by
      intro f hf
      have hout : groupUpdate g f ∈ symbolPhase X :=
        mem_symbolPhase_iff.2 ⟨p, hp, g, hg, f, hf, rfl⟩
      have := hne _ hout
      rw [groupUpdate_company] at this
      simpa [hkn] using this
    have hallu := kcOf_nil_all_unknown g.entries hnoemp hkcnil
    rw [hallu e he, hallu e' he']
  · simp [hkn]

/-- When every record already carries its normalized name and companies
are uniform within (symbol, name) classes, phase 2 permutes the input
without changing records. -/
theorem symbolPhase_fixed_perm {X : List AnalystQuestion}
    (v1 : ∀ r ∈ X, r.analystName = keyOf r)
    (v2 : ∀ r ∈ X, ∀ r' ∈ X, r.symbol = r'.symbol → keyOf r = keyOf r' →
      r.analystCompany = r'.analystCompany) :
    (symbolPhase X).Perm X := by
  have hid : ∀ p ∈ groupByKey (fun q => q.symbol) X, ∀ g ∈ buildNameGroups p.2,
      consolidateGroup g = g.entries := by
    intro p hp g hg
    obtain ⟨hndS, hcovS, hfilS⟩ := groupByKey_char (fun q => q.symbol) X
    obtain ⟨hent, hkc⟩ := (buildNameGroups_char p.2).2.2 g hg
    have hmemX : ∀ f ∈ g.entries, f ∈ X ∧ f.symbol = p.1 ∧ keyOf f = g.normalizedName := by
      intro f hf
      have hff : f ∈ p.2.filter (fun q => keyOf q = g.normalizedName) := by
        rw [← hent]
        exact hf
      have hfp2 : f ∈ p.2 := (List.mem_filter.1 hff).1
      have hfk : keyOf f = g.normalizedName := by simpa using (List.mem_filter.1 hff).2
      have hff2 : f ∈ X.filter (fun q => q.symbol = p.1) := by
        rw [← hfilS p hp]
        exact hfp2
      exact ⟨(List.mem_filter.1 hff2).1, by simpa using (List.mem_filter.1 hff2).2, hfk⟩
    have hupd : ∀ e ∈ g.entries, groupUpdate g e = e := by
      intro e he
      obtain ⟨heX, hes, hek⟩ := hmemX e he
      have huni : ∀ f ∈ g.entries, f.analystCompany = e.analystCompany := by
        intro f hf
        obtain ⟨hfX, hfs, hfk⟩ := hmemX f hf
        exact v2 f hfX e heX (by rw [hfs, hes]) (by rw [hfk, hek])
      apply groupUpdate_id
      · rw [v1 e heX, hek]
      · by_cases hC : e.analystCompany = strUnknown
        · left
          rw [hkc]
          apply kcOf_all_unknown
          intro f hf
          rw [huni f hf, hC]
        · right
          rw [hkc, kcOf_eq_of_mem hC g.entries (fun f hf => Or.inl (huni f hf)) ⟨e, he, rfl⟩]
    calc consolidateGroup g = g.entries.map (fun e => e) :=
          List.map_congr_left fun e he => hupd e he
      _ = g.entries := List.map_id _
  have h1 : symbolPhase X = (groupByKey (fun q => q.symbol) X).flatMap
      (fun p => (buildNameGroups p.2).flatMap NameGroup.entries) := by
    rw [symbolPhase]
    exact flatMap_congr_left fun p hp => flatMap_congr_left fun g hg => hid p hp g hg
  rw [h1]
  have h2 : ((groupByKey (fun q => q.symbol) X).flatMap
      (fun p => (buildNameGroups p.2).flatMap NameGroup.entries)).Perm
      ((groupByKey (fun q => q.symbol) X).flatMap Prod.snd) :=
    flatMap_perm_congr fun p _ => buildNameGroups_flat_perm p.2
  exact h2.trans (groupByKey_flat_perm _ X)

/-- C3 (amended): consolidation is idempotent up to record order when the
operator map misses every record of the first run's output (a map hit on
a RENAMED record re-triggers phase 1, as in the counterexample) and no
output company is the empty string: a second run returns a permutation
of the first run's output, changing no record. -/
theorem consolidation_idempotent_perm (qs : List AnalystQuestion) (m : OpMap)
    (H1 : ∀ r ∈ applyCompanyWideAnalystConsolidation qs m,
      mapGet m (jsTrim r.analystName) = none)
    (H2 : ∀ r ∈ applyCompanyWideAnalystConsolidation qs m, r.analystCompany ≠ []) :
    (applyCompanyWideAnalystConsolidation (applyCompanyWideAnalystConsolidation qs m) m).Perm
      (applyCompanyWideAnalystConsolidation qs m) := by
  have hmapid : (applyCompanyWideAnalystConsolidation qs m).map (applyOperatorToQuestion m)
      = applyCompanyWideAnalystConsolidation qs m := by
    have h : ∀ r ∈ applyCompanyWideAnalystConsolidation qs m,
        applyOperatorToQuestion m r = (fun x => x) r := fun r hr => applyOperator_miss (H1 r hr)
    rw [List.map_congr_left h]
    exact List.map_id _
  have hX : (transcriptPhase m (applyCompanyWideAnalystConsolidation qs m)).Perm
      (applyCompanyWideAnalystConsolidation qs m) := by
    have h := transcriptPhase_perm m (applyCompanyWideAnalystConsolidation qs m)
    rw [hmapid] at h
    exact h
  have v1 : ∀ r ∈ transcriptPhase m (applyCompanyWideAnalystConsolidation qs m),
      r.analystName = keyOf r := by
    intro r hr
    exact symbolPhase_name_canonical r (hX.mem_iff.1 hr)
  have v2 : ∀ r ∈ transcriptPhase m (applyCompanyWideAnalystConsolidation qs m),
      ∀ r' ∈ transcriptPhase m (applyCompanyWideAnalystConsolidation qs m),
      r.symbol = r'.symbol → keyOf r = keyOf r' → r.analystCompany = r'.analystCompany := by
    intro r hr r' hr' h1 h2
    exact symbolPhase_company_uniform H2 r (hX.mem_iff.1 hr) r' (hX.mem_iff.1 hr') h1 h2
  exact (symbolPhase_fixed_perm v1 v2).trans hX

/-- The C3 witness record. -/
def c3w : AnalystQuestion where
  analystName := str "Jane Smith"
  analystTitle := str "Analyst"
  analystCompany := str "Goldman Sachs"
  question := str "Q"
  transcriptId := 1
  symbol := str "AAPL"
  quarter := str "Q1 2024"
  year := 2024
  transcriptTitle := str "T1"

/-- C3 witness: a concrete run of the amended idempotence theorem. -/
theorem consolidation_idempotent_perm_witness :
    (applyCompanyWideAnalystConsolidation
        (applyCompanyWideAnalystConsolidation [c3w] []) []).Perm
      (applyCompanyWideAnalystConsolidation [c3w] []) :=
  consolidation_idempotent_perm [c3w] [] (by decide) (by decide)

/- C6: symbol isolation. -/

/-- An MSFT record of John Doe (other transcript). -/
def c6A : AnalystQuestion where
  analystName := str "John Doe"
  analystTitle := str "Analyst"
  analystCompany := str "X Capital"
  question := str "QA"
  transcriptId := 1
  symbol := str "MSFT"
  quarter := str "Q1 2024"
  year := 2024
  transcriptTitle := str "T1"

/-- An AAPL record of John Doe with company G1. -/
def c6B : AnalystQuestion where
  analystName := str "John Doe"
  analystTitle := str "Analyst"
  analystCompany := str "G1"
  question := str "QB"
  transcriptId := 2
  symbol := str "AAPL"
  quarter := str "Q1 2024"
  year := 2024
  transcriptTitle := str "T2"

/-- An AAPL record of John Doe with company G2, sharing `c6A`'s
transcript. -/
def c6C : AnalystQuestion where
  analystName := str "John Doe"
  analystTitle := str "Analyst"
  analystCompany := str "G2"
  question := str "QC"
  transcriptId := 1
  symbol := str "AAPL"
  quarter := str "Q1 2024"
  year := 2024
  transcriptTitle := str "T1"

/-- C6 counterexample: the MSFT record `c6A` is never grouped with the
AAPL records, yet its PRESENCE changes the AAPL record `c6B`'s final
company: phase 1 groups by transcriptId across symbols, so `c6A` reorders
the AAPL records and flips which company is written last into the shared
identity group — the final fields are NOT independent of other-symbol
records. -/
theorem symbol_isolation_cex :
    c6A.symbol ≠ c6B.symbol ∧ keyOf c6A = keyOf c6B ∧
    (applyCompanyWideAnalystConsolidation [c6A, c6B, c6C] []).filterMap
        (fun r => if r.question = c6B.question then some r.analystCompany else none)
      = [str "G1"] ∧
    (applyCompanyWideAnalystConsolidation [c6B, c6C] []).filterMap
        (fun r => if r.question = c6B.question then some r.analystCompany else none)
      = [str "G2"] := by
  decide

theorem symbolGroup_body_symbol {L : List AnalystQuestion}
    {p : Str × List AnalystQuestion} (hp : p ∈ groupByKey (fun q => q.symbol) L) :
    ∀ r ∈ (buildNameGroups p.2).flatMap consolidateGroup, r.symbol = p.1 := by
  intro r hr
  obtain ⟨g, hg, hr2⟩ := List.mem_flatMap.1 hr
  rw [consolidateGroup] at hr2
  obtain ⟨e, he, hre⟩ := List.mem_map.1 hr2
  obtain ⟨hent, _⟩ := (buildNameGroups_char p.2).2.2 g hg
  have hef : e ∈ p.2.filter (fun q => keyOf q = g.normalizedName) := by
    rw [← hent]
    exact he
  have hef2 : e ∈ L.filter (fun q => q.symbol = p.1) := by
    rw [← (groupByKey_char (fun q => q.symbol) L).2.2 p hp]
    exact (List.mem_filter.1 hef).1
  have hes : e.symbol = p.1 := by simpa using (List.mem_filter.1 hef2).2
  rw [← hre, groupUpdate_symbol, hes]

theorem filter_flatMap {α β : Type} (l : List α) (f : α → List β) (p : β → Bool) :
    (l.flatMap f).filter p = l.flatMap (fun a => (f a).filter p) := by
  induction l with
  | nil => rfl
  | cons a t ih =>
    simp only [List.flatMap_cons, List.filter_append, ih]

theorem flatMap_eq_of_single {γ α β : Type} {gl : List (γ × α)} {F : γ × α → List β}
    {p : γ × α} (hnd : (gl.map Prod.fst).Nodup) (hp : p ∈ gl)
    (hz : ∀ sg ∈ gl, sg.1 ≠ p.1 → F sg = []) :
    gl.flatMap F = F p := by
  induction gl with
  | nil => cases hp
  | cons g rest ih =>
    obtain ⟨hg1, hnd1⟩ := List.nodup_cons.1 hnd
    rcases List.mem_cons.1 hp with hpg | hpr
    · subst hpg
      simp only [List.flatMap_cons]
      have hrest : rest.flatMap F = [] := by
        apply List.flatMap_eq_nil_iff.2
        intro sg hsg
        apply hz sg (List.mem_cons_of_mem _ hsg)
        intro hc
        exact hg1 (hc ▸ List.mem_map_of_mem Prod.fst hsg)
      rw [hrest, List.append_nil]
    · have hgz : F g = [] := by
        apply hz g (List.mem_cons_self g rest)
        intro hc
        exact hg1 (by rw [hc]; exact List.mem_map_of_mem Prod.fst hpr)
      simp only [List.flatMap_cons, hgz, List.nil_append]
      exact ih hnd1 hpr (fun sg hsg h => hz sg (List.mem_cons_of_mem _ hsg) h)

theorem groupByKey_all_same {α K : Type} [DecidableEq K] (key : α → K) (k : K) :
    ∀ xs : List α, (∀ x ∈ xs, key x = k) → xs ≠ [] → groupByKey key xs = [(k, xs)] := by
  intro xs
  induction xs using List.reverseRecOn with
  | nil =>
    intro _ h
    exact absurd rfl h
  | append_singleton ys x ih =>
    intro hall _
    have hstep : groupByKey key (ys ++ [x]) = insGroup (key x) x (groupByKey key ys) := by
      simp [groupByKey, List.foldl_append]
    rw [hstep]
    by_cases hys : ys = []
    · subst hys
      simp [groupByKey, insGroup, hall x (by simp)]
    · rw [ih (fun y hy => hall y (List.mem_append_left _ hy)) hys]
      simp [insGroup, hall x (by simp)]

/-- C6 (amended): identity groups never mix symbols — every phase-2 name
group lives inside one symbol group, so any two entries of one group
share the symbol — and the phase-2 RESULT for a symbol is a function of
that symbol's phase-1 records alone (filtering the output by a symbol
equals consolidating the filtered input).  Full independence of the
final fields from other-symbol records fails, because phase 1's
transcript grouping reorders records across symbols (see the
counterexample). -/
theorem symbol_isolation_amended (L : List AnalystQuestion) (s : Str) :
    (∀ p ∈ groupByKey (fun q => q.symbol) L, ∀ g ∈ buildNameGroups p.2,
      ∀ e ∈ g.entries, ∀ e' ∈ g.entries, e.symbol = e'.symbol) ∧
    (symbolPhase L).filter (fun r => r.symbol = s) =
      symbolPhase (L.filter (fun r => r.symbol = s)) := by
  constructor
  · intro p hp g hg e he e' he'
    obtain ⟨hent, _⟩ := (buildNameGroups_char p.2).2.2 g hg
    have hfil := (groupByKey_char (fun q => q.symbol) L).2.2 p hp
    have h1 : e.symbol = p.1 := by
      have hef : e ∈ p.2.filter (fun q => keyOf q = g.normalizedName) := by
        rw [← hent]
        exact he
      have hef2 : e ∈ L.filter (fun q => q.symbol = p.1) := by
        rw [← hfil]
        exact (List.mem_filter.1 hef).1
      simpa using (List.mem_filter.1 hef2).2
    have h2 : e'.symbol = p.1 := by
      have hef : e' ∈ p.2.filter (fun q => keyOf q = g.normalizedName) := by
        rw [← hent]
        exact he'
      have hef2 : e' ∈ L.filter (fun q => q.symbol = p.1) := by
        rw [← hfil]
        exact (List.mem_filter.1 hef).1
      simpa using (List.mem_filter.1 hef2).2
    rw [h1, h2]
  · by_cases hfe : L.filter (fun r => r.symbol = s) = []
    · rw [hfe]
      have hrhs : symbolPhase ([] : List AnalystQuestion) = [] := rfl
      rw [hrhs, symbolPhase, filter_flatMap]
      apply List.flatMap_eq_nil_iff.2
      intro p hp
      by_cases hps : p.1 = s
      · have hp2 : p.2 = [] := by
          rw [(groupByKey_char (fun q => q.symbol) L).2.2 p hp, hps, hfe]
        rw [hp2]
        rfl
      · apply List.filter_eq_nil_iff.2
        intro r hr
        have hrsym := symbolGroup_body_symbol hp r hr
        simp [hrsym, hps]
    · obtain ⟨x, hx⟩ := List.exists_mem_of_ne_nil _ hfe
      obtain ⟨hxL, hxs⟩ := List.mem_filter.1 hx
      obtain ⟨p, hp, hpfst, hpfil, hxp⟩ := exists_symbolGroup hxL
      have hps : p.1 = s := by
        rw [hpfst]
        simpa using hxs
      rw [symbolPhase, filter_flatMap]
      have hz : ∀ sg ∈ groupByKey (fun q => q.symbol) L, sg.1 ≠ p.1 →
          ((buildNameGroups sg.2).flatMap consolidateGroup).filter
            (fun r => r.symbol = s) = [] := by
        intro sg hsg hne
        apply List.filter_eq_nil_iff.2
        intro r hr
        have hrsym := symbolGroup_body_symbol hsg r hr
        have hnes : sg.1 ≠ s := by
          rw [← hps]
          exact hne
        simp [hrsym, hnes]
      rw [flatMap_eq_of_single (groupByKey_char (fun q => q.symbol) L).1 hp hz]
      have hself : ((buildNameGroups p.2).flatMap consolidateGroup).filter
          (fun r => r.symbol = s) = (buildNameGroups p.2).flatMap consolidateGroup := by
        apply List.filter_eq_self.2
        intro r hr
        have hrsym := symbolGroup_body_symbol hp r hr
        simp [hrsym, hps]
      rw [hself]
      have hgb : groupByKey (fun q => q.symbol) (L.filter (fun r => r.symbol = s))
          = [(s, L.filter (fun r => r.symbol = s))] := by
        apply groupByKey_all_same
        · intro y hy
          simpa using (List.mem_filter.1 hy).2
        · exact hfe
      rw [symbolPhase, hgb]
      simp only [List.flatMap_cons, List.flatMap_nil, List.append_nil]
      rw [hpfil, hps]
